import Mathlib

/-!
# Verification of the `wal` write-ahead log

Shallow embedding of the single-file write-ahead log (`wal.go`, `types.go`)
and proofs of the specification's claims about it.

Files are modelled as `List Nat` (each element one byte, `< 256` where it
matters); machine 32-bit quantities are `Nat` with explicit bounds; the
record header (`recordHeader`: 4-byte checksum then 4-byte length, native
little-endian layout via `unsafe.Slice` reinterpretation) is modelled by
`le32`-encoded fields.  Loops are embedded as fuel-indexed structural
recursions whose wrappers supply provably sufficient fuel.
-/

namespace Wal

/-- `RecordHeaderSize` from `types.go`: the record header is 8 bytes. -/
def RecordHeaderSize : Nat := 8

/-- `MaxRecordSize` from `types.go`: maximum payload size, `1<<32 - 1`. -/
def MaxRecordSize : Nat := 2 ^ 32 - 1

/-! ## CRC-32 (IEEE), as `hash/crc32.ChecksumIEEE` computes it -/

/-- The reversed CRC-32 IEEE polynomial used by Go's `crc32.IEEETable`. -/
def crcPoly : Nat := 0xEDB88320

/-- One bit step of the CRC-32 table construction: shift right, conditionally
XOR the polynomial (Go `crc32.simpleMakeTable`). -/
def crcBitStep (r : Nat) : Nat :=
  if r % 2 = 1 then (r >>> 1) ^^^ crcPoly else r >>> 1

/-- Entry `i` of Go's `crc32.IEEETable`: eight bit steps applied to `i`. -/
def crcTable (i : Nat) : Nat := crcBitStep^[8] i

/-- One byte step of the CRC-32 update (Go `crc32.simpleUpdate` body:
`crc = tab[byte(crc)^v] ^ (crc >> 8)`); the `byte` casts are `&&& 255`. -/
def crcUpdate (crc b : Nat) : Nat :=
  crcTable ((crc &&& 255) ^^^ (b &&& 255)) ^^^ (crc >>> 8)

/-- Go `crc32.ChecksumIEEE`: initial complement, byte folds, final
complement (complement of a `uint32` is XOR with `0xFFFFFFFF`). -/
def crc32 (p : List Nat) : Nat :=
  (p.foldl crcUpdate 0xFFFFFFFF) ^^^ 0xFFFFFFFF

/-! ## Record codec -/

/-- Little-endian 4-byte encoding of a 32-bit value, as the in-memory layout
of a `uint32` field seen through `encode`'s `unsafe.Slice`. -/
def le32 (n : Nat) : List Nat :=
  [n % 256, n / 2 ^ 8 % 256, n / 2 ^ 16 % 256, n / 2 ^ 24 % 256]

/-- Reading a 4-byte little-endian value back (the `decode` direction of the
header reinterpretation). -/
def readLe32 (bs : List Nat) : Nat :=
  bs.getD 0 0 + bs.getD 1 0 * 2 ^ 8 + bs.getD 2 0 * 2 ^ 16 + bs.getD 3 0 * 2 ^ 24

/-- The 8 header bytes of a record: checksum field then size field
(`recordHeader{sum, size}` laid out by `encode`). -/
def encodeHeader (sum size : Nat) : List Nat := le32 sum ++ le32 size

theorem le32_length (n : Nat) : (le32 n).length = 4 := rfl

theorem encodeHeader_length (sum size : Nat) :
    (encodeHeader sum size).length = RecordHeaderSize := rfl

theorem readLe32_le32 (n : Nat) (rest : List Nat) (h : n < 2 ^ 32) :
    readLe32 (le32 n ++ rest) = n := by
  simp only [le32, readLe32, List.cons_append, List.getD_cons_zero,
    List.getD_cons_succ]
  omega


/-! ## CRC-32 facts

The corruption-detection claim needs that changing a single payload byte
changes the checksum.  The proof uses that the CRC byte step is injective
in the running state for a fixed byte, and separates distinct bytes for a
fixed state; both reduce to the top bytes of the 256 table entries being
pairwise distinct, a closed computation checked by `decide`. -/

/-- The top bytes (`>>> 24`) of the 256 entries of `crcTable`. -/
def crcTopBytes : List Nat := [0,119,238,153,7,112,233,158,14,121,224,151,9,126,231,144,29,106,243,132,26,109,244,131,19,100,253,138,20,99,250,141,59,76,213,162,60,75,210,165,53,66,219,172,50,69,220,171,38,81,200,191,33,86,207,184,40,95,198,177,47,88,193,182,118,1,152,239,113,6,159,232,120,15,150,225,127,8,145,230,107,28,133,242,108,27,130,245,101,18,139,252,98,21,140,251,77,58,163,212,74,61,164,211,67,52,173,218,68,51,170,221,80,39,190,201,87,32,185,206,94,41,176,199,89,46,183,192,237,154,3,116,234,157,4,115,227,148,13,122,228,147,10,125,240,135,30,105,247,128,25,110,254,137,16,103,249,142,23,96,214,161,56,79,209,166,63,72,216,175,54,65,223,168,49,70,203,188,37,82,204,187,34,85,197,178,43,92,194,181,44,91,155,236,117,2,156,235,114,5,149,226,123,12,146,229,124,11,134,241,104,31,129,246,111,24,136,255,102,17,143,248,97,22,160,215,78,57,167,208,73,62,174,217,64,55,169,222,71,48,189,202,83,36,186,205,84,35,179,196,93,42,180,195,90,45]

set_option maxRecDepth 100000 in
theorem crcTopBytes_eq :
    (List.range 256).map (fun i => crcTable i >>> 24) = crcTopBytes := by decide

set_option maxRecDepth 100000 in
theorem crcTopBytes_nodup : crcTopBytes.Nodup := by decide

theorem crcTable_top_inj {i j : Nat} (hi : i < 256) (hj : j < 256)
    (h : crcTable i >>> 24 = crcTable j >>> 24) : i = j := by
  have hnd : ((List.range 256).map (fun i => crcTable i >>> 24)).Nodup := by
    rw [crcTopBytes_eq]; exact crcTopBytes_nodup
  exact List.inj_on_of_nodup_map hnd (List.mem_range.mpr hi) (List.mem_range.mpr hj) h

theorem crcBitStep_lt {r : Nat} (h : r < 2 ^ 32) : crcBitStep r < 2 ^ 32 := by
  have h1 : r >>> 1 < 2 ^ 32 := by
    rw [Nat.shiftRight_eq_div_pow]; omega
  unfold crcBitStep
  split
  · exact Nat.xor_lt_two_pow h1 (by norm_num [crcPoly])
  · exact h1

theorem crcTable_lt {i : Nat} (h : i < 2 ^ 32) : crcTable i < 2 ^ 32 := by
  unfold crcTable
  have : ∀ k r, r < 2 ^ 32 → crcBitStep^[k] r < 2 ^ 32 := by
    intro k
    induction k with
    | zero => intro r hr; simpa using hr
    | succ k ih =>
      intro r hr
      rw [Function.iterate_succ_apply]
      exact ih _ (crcBitStep_lt hr)
  exact this 8 i h

theorem and_255_eq_mod (a : Nat) : a &&& 255 = a % 256 := by
  have := Nat.and_pow_two_sub_one_eq_mod a 8
  norm_num at this
  exact this

theorem and_255_lt (a : Nat) : a &&& 255 < 256 := by
  rw [and_255_eq_mod]; omega

theorem xor_byte_lt {a b : Nat} (ha : a < 256) (hb : b < 256) : a ^^^ b < 256 := by
  have h256 : (256 : Nat) = 2 ^ 8 := by norm_num
  rw [h256] at ha hb ⊢
  exact Nat.xor_lt_two_pow ha hb

theorem crcUpdate_lt {crc : Nat} (h : crc < 2 ^ 32) (b : Nat) :
    crcUpdate crc b < 2 ^ 32 := by
  unfold crcUpdate
  refine Nat.xor_lt_two_pow (crcTable_lt ?_) ?_
  · exact lt_trans (xor_byte_lt (and_255_lt _) (and_255_lt _)) (by norm_num)
  · rw [Nat.shiftRight_eq_div_pow]; omega

theorem foldl_crcUpdate_lt {s : Nat} (h : s < 2 ^ 32) (u : List Nat) :
    u.foldl crcUpdate s < 2 ^ 32 := by
  induction u generalizing s with
  | nil => exact h
  | cons b u ih => exact ih (crcUpdate_lt h b)

theorem shiftRight_xor_distrib (a b k : Nat) :
    (a ^^^ b) >>> k = (a >>> k) ^^^ (b >>> k) := by
  apply Nat.eq_of_testBit_eq
  intro i
  simp [Nat.testBit_shiftRight, Nat.testBit_xor]

theorem shiftRight_24_of_lt {a : Nat} (h : a < 2 ^ 24) : a >>> 24 = 0 := by
  rw [Nat.shiftRight_eq_div_pow]
  exact Nat.div_eq_of_lt h

/-- For a state below `2 ^ 32`, the top byte of a CRC byte step is the top
byte of the table entry it selects. -/
theorem crcUpdate_top {crc : Nat} (h : crc < 2 ^ 32) (b : Nat) :
    crcUpdate crc b >>> 24 = crcTable ((crc &&& 255) ^^^ (b &&& 255)) >>> 24 := by
  unfold crcUpdate
  rw [shiftRight_xor_distrib]
  have h8 : crc >>> 8 < 2 ^ 24 := by
    rw [Nat.shiftRight_eq_div_pow]; omega
  rw [shiftRight_24_of_lt h8, Nat.xor_zero]

/-- The CRC byte step is injective in the running state for a fixed byte. -/
theorem crcUpdate_state_inj {s₁ s₂ b : Nat} (h₁ : s₁ < 2 ^ 32) (h₂ : s₂ < 2 ^ 32)
    (h : crcUpdate s₁ b = crcUpdate s₂ b) : s₁ = s₂ := by
  have htop : crcTable ((s₁ &&& 255) ^^^ (b &&& 255)) >>> 24
      = crcTable ((s₂ &&& 255) ^^^ (b &&& 255)) >>> 24 := by
    rw [← crcUpdate_top h₁ b, ← crcUpdate_top h₂ b, h]
  have hidx : (s₁ &&& 255) ^^^ (b &&& 255) = (s₂ &&& 255) ^^^ (b &&& 255) :=
    crcTable_top_inj (xor_byte_lt (and_255_lt _) (and_255_lt _))
      (xor_byte_lt (and_255_lt _) (and_255_lt _)) htop
  have hlow : s₁ &&& 255 = s₂ &&& 255 := by
    have := congrArg (· ^^^ (b &&& 255)) hidx
    simpa [Nat.xor_cancel_right] using this
  have hhigh : s₁ >>> 8 = s₂ >>> 8 := by
    unfold crcUpdate at h
    rw [hidx] at h
    have := congrArg (crcTable ((s₂ &&& 255) ^^^ (b &&& 255)) ^^^ ·) h
    simpa [Nat.xor_cancel_left] using this
  simp only [and_255_eq_mod] at hlow
  simp only [Nat.shiftRight_eq_div_pow] at hhigh
  norm_num at hhigh
  omega

/-- The CRC byte step separates distinct bytes for a fixed state. -/
theorem crcUpdate_byte_ne {s b₁ b₂ : Nat} (hb₁ : b₁ < 256) (hb₂ : b₂ < 256)
    (hne : b₁ ≠ b₂) : crcUpdate s b₁ ≠ crcUpdate s b₂ := by
  intro h
  apply hne
  have e₁ : b₁ &&& 255 = b₁ := by rw [and_255_eq_mod]; omega
  have e₂ : b₂ &&& 255 = b₂ := by rw [and_255_eq_mod]; omega
  have hT : crcTable ((s &&& 255) ^^^ b₁) = crcTable ((s &&& 255) ^^^ b₂) := by
    unfold crcUpdate at h
    rw [e₁, e₂] at h
    have := congrArg (· ^^^ (s >>> 8)) h
    simpa [Nat.xor_cancel_right] using this
  have hidx : (s &&& 255) ^^^ b₁ = (s &&& 255) ^^^ b₂ :=
    crcTable_top_inj (xor_byte_lt (and_255_lt _) hb₁)
      (xor_byte_lt (and_255_lt _) hb₂) (by rw [hT])
  have := congrArg ((s &&& 255) ^^^ ·) hidx
  simpa [Nat.xor_cancel_left] using this

/-- Folding the CRC byte step over a common suffix preserves distinctness of
the running states. -/
theorem foldl_crcUpdate_ne {s₁ s₂ : Nat} (h₁ : s₁ < 2 ^ 32) (h₂ : s₂ < 2 ^ 32)
    (hne : s₁ ≠ s₂) (u : List Nat) :
    u.foldl crcUpdate s₁ ≠ u.foldl crcUpdate s₂ := by
  induction u generalizing s₁ s₂ with
  | nil => exact hne
  | cons b u ih =>
    exact ih (crcUpdate_lt h₁ b) (crcUpdate_lt h₂ b)
      (fun h => hne (crcUpdate_state_inj h₁ h₂ h))

theorem set_eq_take_cons_drop {α : Type} (p : List α) (i : Nat) (b : α)
    (h : i < p.length) : p.set i b = p.take i ++ b :: p.drop (i + 1) := by
  induction p generalizing i with
  | nil => simp at h
  | cons a p ih =>
    cases i with
    | zero => simp
    | succ i =>
      simp only [List.set_cons_succ, List.take_succ_cons, List.drop_succ_cons,
        List.cons_append, List.cons.injEq, true_and]
      exact ih i (by simpa using h)

/-- Changing any single byte of a byte string changes its CRC-32 checksum. -/
theorem crc32_set_ne {p : List Nat} {i b : Nat}
    (hp : ∀ x ∈ p, x < 256) (hi : i < p.length) (hb : b < 256)
    (hne : b ≠ p[i]) : crc32 (p.set i b) ≠ crc32 p := by
  have hdecomp : p = p.take i ++ p[i] :: p.drop (i + 1) := by
    conv_lhs => rw [← List.take_append_drop i p]
    rw [List.drop_eq_getElem_cons hi]
  have hset : p.set i b = p.take i ++ b :: p.drop (i + 1) :=
    set_eq_take_cons_drop p i b hi
  unfold crc32
  intro h
  have hxor : (p.set i b).foldl crcUpdate 0xFFFFFFFF = p.foldl crcUpdate 0xFFFFFFFF := by
    have := congrArg (· ^^^ 0xFFFFFFFF) h
    simpa [Nat.xor_cancel_right] using this
  rw [hset] at hxor
  conv_rhs at hxor => rw [hdecomp]
  rw [List.foldl_append, List.foldl_append, List.foldl_cons, List.foldl_cons] at hxor
  have hs : (p.take i).foldl crcUpdate 0xFFFFFFFF < 2 ^ 32 :=
    foldl_crcUpdate_lt (by norm_num) _
  have hpi : p[i] < 256 := hp _ (p.getElem_mem hi)
  exact foldl_crcUpdate_ne (crcUpdate_lt hs b) (crcUpdate_lt hs p[i])
    (crcUpdate_byte_ne hb hpi hne) _ hxor

/-! ## File model

A file is a byte list.  `os.File.WriteAt` past the current end zero-fills
the gap; `os.File.Truncate` to a larger size zero-extends.  `ReadAt` into a
buffer of `n` bytes fails (short read) unless `n` bytes are available. -/

/-- `os.File.WriteAt`: overwrite `data` at offset `off`, zero-filling any gap
past the end of the file. -/
def writeAt (file : List Nat) (off : Nat) (data : List Nat) : List Nat :=
  let f := file ++ List.replicate (off - file.length) 0
  f.take off ++ data ++ f.drop (off + data.length)

/-- `os.File.Truncate`: resize the file to `n` bytes, zero-extending if `n`
exceeds the current size. -/
def truncateFile (file : List Nat) (n : Nat) : List Nat :=
  file.take n ++ List.replicate (n - file.length) 0

/-- `os.File.ReadAt` into an `n`-byte buffer: all `n` bytes or a failure. -/
def readAtExact (file : List Nat) (off n : Nat) : Option (List Nat) :=
  if off + n ≤ file.length then some ((file.drop off).take n) else none

theorem writeAt_append (file : List Nat) (off : Nat) (data : List Nat)
    (h : off = file.length) : writeAt file off data = file ++ data := by
  subst h
  simp [writeAt]

/-! ## Reading records

`Reader.readRecord` reads the 8-byte header at the read cursor, decodes
checksum and size, reads `size` payload bytes, and validates the checksum;
on success the cursor advances past header and payload. -/

/-- `Reader.readRecord` (with `readRecordHeader` inlined): returns the
payload and the advanced cursor. -/
def readRecord (file : List Nat) (pos : Nat) : Except String (List Nat × Nat) :=
  match readAtExact file pos RecordHeaderSize with
  | none => .error "Fail to read record"
  | some hb =>
    match readAtExact file (pos + RecordHeaderSize) (readLe32 (hb.drop 4)) with
    | none => .error "Fail to read record"
    | some data =>
      if crc32 data = readLe32 hb then
        .ok (data, pos + RecordHeaderSize + readLe32 (hb.drop 4))
      else .error "Fail to read record: checksum is wrong, data is broken"

/-- On success, `readRecord` stays within the file and advances by header
plus payload. -/
theorem readRecord_ok_bounds {file : List Nat} {pos : Nat} {data : List Nat}
    {newpos : Nat} (h : readRecord file pos = .ok (data, newpos)) :
    pos + RecordHeaderSize ≤ file.length ∧
      newpos = pos + RecordHeaderSize + data.length ∧ newpos ≤ file.length := by
  unfold readRecord readAtExact at h
  split at h
  · exact absurd h (by simp)
  · rename_i hb hhb
    split at h
    · exact absurd h (by simp)
    · rename_i data0 hdata
      split at h
      · simp only [Except.ok.injEq, Prod.mk.injEq] at h
        obtain ⟨rfl, rfl⟩ := h
        split at hhb <;> simp only [Option.some.injEq, reduceCtorEq] at hhb
        split at hdata <;> simp only [Option.some.injEq, reduceCtorEq] at hdata
        rename_i h1 h2
        subst hdata
        refine ⟨h1, ?_, by omega⟩
        congr 1
        simp only [List.length_take, List.length_drop]
        omega
      · exact absurd h (by simp)

/-! ## `Reader.Next`

The loop reads records, skipping those with empty payload (sync markers),
and stops with an end sentinel when the cursor reaches the snapshot size.
The loop is embedded with fuel; each iteration that continues consumes a
record of at least `RecordHeaderSize` bytes lying inside the file, so
`file.length + 1` units of fuel provably never run out (`nextAux_no_fuel`).
Rather than Go's `(-1, nil, nil)` end sentinel, the result is an `Option`:
`none` is end-of-log, `some (pos, data, newCursor)` a yielded record. -/

def nextAux (file : List Nat) (size : Nat) :
    Nat → Nat → Except String (Option (Nat × List Nat × Nat))
  | 0, _ => .error "out of fuel"
  | fuel + 1, pos =>
    if pos = size then .ok none
    else
      match readRecord file pos with
      | .error e => .error e
      | .ok (data, newpos) =>
        if data.length = 0 then nextAux file size fuel newpos
        else .ok (some (newpos - (data.length + RecordHeaderSize), data, newpos))

/-- `Reader.Next`, with the fuel fixed to a sufficient value. -/
def next (file : List Nat) (size pos : Nat) :
    Except String (Option (Nat × List Nat × Nat)) :=
  nextAux file size (file.length + 1) pos

/-- An error from `readRecord` carries one of its two messages. -/
theorem readRecord_error_msg {file : List Nat} {pos : Nat} {e : String}
    (h : readRecord file pos = .error e) :
    e = "Fail to read record" ∨
      e = "Fail to read record: checksum is wrong, data is broken" := by
  unfold readRecord at h
  split at h
  · simp only [Except.error.injEq] at h; exact Or.inl h.symm
  · split at h
    · simp only [Except.error.injEq] at h; exact Or.inl h.symm
    · split at h
      · exact absurd h (by simp)
      · simp only [Except.error.injEq] at h; exact Or.inr h.symm

/-- The fuel supplied by `next` never runs out: with at least
`file.length + 1 - pos` units the loop cannot hit `0`. -/
theorem nextAux_no_fuel {file : List Nat} {size : Nat} :
    ∀ fuel pos, 0 < fuel → file.length + 1 - pos ≤ fuel →
      nextAux file size fuel pos ≠ .error "out of fuel" := by
  intro fuel
  induction fuel with
  | zero => intro pos h0 h; omega
  | succ fuel ih =>
    intro pos h0 h
    unfold nextAux
    split
    · simp
    · split
      · rename_i e heq
        rcases readRecord_error_msg heq with rfl | rfl <;> simp
      · rename_i data newpos heq
        have hb := readRecord_ok_bounds heq
        split
        · have h8 : RecordHeaderSize = 8 := rfl
          exact ih newpos (by omega) (by omega)
        · simp

/-- Scanning a reader to the end: repeated `Next` until the end sentinel,
collecting `(position, payload)` pairs.  Fueled like `nextAux`; each yielded
record consumes at least `RecordHeaderSize + 1` bytes of the file, so
`file.length + 1` units never run out. -/
def scanAux (file : List Nat) (size : Nat) :
    Nat → Nat → Except String (List (Nat × List Nat))
  | 0, _ => .error "out of fuel"
  | fuel + 1, pos =>
    match next file size pos with
    | .error e => .error e
    | .ok none => .ok []
    | .ok (some (s, d, newpos)) =>
      match scanAux file size fuel newpos with
      | .error e => .error e
      | .ok rest => .ok ((s, d) :: rest)

/-- Reading every record a reader yields, with sufficient fuel. -/
def readAll (file : List Nat) (size pos : Nat) :
    Except String (List (Nat × List Nat)) :=
  scanAux file size (file.length + 1) pos

/-- The scan of `Wal.recovery`: walk records from the front, remembering the
cursor value just after each sync record (`h.size == 0`), and stop at the
first spot where no full header fits or a record fails to parse.  `acc` is
the `pos` variable of `recovery`.  Fueled; each iteration consumes
`RecordHeaderSize` bytes, so `file.length + 1` units never run out
(`recoveryScanAux_fuel_stable` shows extra fuel is irrelevant). -/
def recoveryScanAux (file : List Nat) :
    Nat → Nat → Nat → Nat
  | 0, _, acc => acc
  | fuel + 1, pos, acc =>
    if file.length < pos + RecordHeaderSize then acc
    else
      match readRecord file pos with
      | .error _ => acc
      | .ok (data, newpos) =>
        recoveryScanAux file fuel newpos (if data.length = 0 then newpos else acc)

/-- The boundary `Wal.recovery` truncates to. -/
def recoveryBoundary (file : List Nat) : Nat :=
  recoveryScanAux file (file.length + 1) 0 0

/-- `Wal.recovery` composed with the cursor store in `Open`: the recovered
file contents and cursor. -/
def recovery (file : List Nat) : List Nat × Nat :=
  (truncateFile file (recoveryBoundary file), recoveryBoundary file)

/-- Once the fuel is at least `file.length + 1 - pos`, adding more does not
change `recoveryScanAux`: the embedded loop never exhausts it. -/
theorem recoveryScanAux_fuel_stable {file : List Nat} :
    ∀ fuel pos acc, file.length + 1 - pos ≤ fuel →
      recoveryScanAux file (fuel + 1) pos acc = recoveryScanAux file fuel pos acc := by
  intro fuel
  induction fuel with
  | zero =>
    intro pos acc h
    unfold recoveryScanAux
    have h8 : RecordHeaderSize = 8 := rfl
    rw [if_pos (by omega)]
  | succ fuel ih =>
    intro pos acc h
    conv_lhs => unfold recoveryScanAux
    conv_rhs => unfold recoveryScanAux
    split
    · rfl
    · split
      · rfl
      · rename_i data newpos heq
        have hb := readRecord_ok_bounds heq
        have h8 : RecordHeaderSize = 8 := rfl
        exact ih newpos _ (by omega)

/-! ## Log layout

A well-formed log region is a concatenation of encoded entries: data
records (non-empty payload, length below `2 ^ 32`) and sync markers
(zero header: `writeSyncRecord` writes the zero value of `recordHeader`,
whose checksum field `0` equals `crc32 []`). -/

/-- One entry of a log: a data record with its payload, or a sync marker. -/
inductive Entry where
  | data (p : List Nat) : Entry
  | sync : Entry
deriving DecidableEq

/-- The bytes a single entry occupies: header then payload.  A data record
stores `crc32 p` and `p.length` (what `writeRecord` writes); a sync marker
stores the zero header (what `writeSyncRecord` writes). -/
def encodeEntry : Entry → List Nat
  | .data p => encodeHeader (crc32 p) p.length ++ p
  | .sync => encodeHeader 0 0

/-- The byte layout of a list of entries. -/
def encodeLog (es : List Entry) : List Nat := (es.map encodeEntry).flatten

/-- Well-formedness of one entry: a data record has a non-empty payload
that fits the 32-bit size field. -/
def entryWF : Entry → Bool
  | .data p => 0 < p.length && p.length < 2 ^ 32
  | .sync => true

/-- Well-formedness of a list of entries. -/
def logWF (es : List Entry) : Bool := es.all entryWF

/-- The data records of a log laid out from byte offset `base`: each with
the offset its header starts at. -/
def logRecords (base : Nat) : List Entry → List (Nat × List Nat)
  | [] => []
  | .sync :: es => logRecords (base + RecordHeaderSize) es
  | .data p :: es => (base, p) :: logRecords (base + RecordHeaderSize + p.length) es

/-- The byte offset just after the last sync marker of a log laid out from
offset `base`, `acc` if there is none (the boundary recovery rolls back
to; `acc` starts at `0`). -/
def lastSyncEnd (base acc : Nat) : List Entry → Nat
  | [] => acc
  | .sync :: es =>
    lastSyncEnd (base + RecordHeaderSize) (base + RecordHeaderSize) es
  | .data p :: es => lastSyncEnd (base + RecordHeaderSize + p.length) acc es

theorem encodeEntry_length_ge (e : Entry) :
    RecordHeaderSize ≤ (encodeEntry e).length := by
  cases e <;> simp [encodeEntry, encodeHeader, le32, RecordHeaderSize]

theorem encodeLog_nil : encodeLog [] = [] := rfl

theorem encodeLog_cons (e : Entry) (es : List Entry) :
    encodeLog (e :: es) = encodeEntry e ++ encodeLog es := by
  simp [encodeLog]

theorem encodeLog_append (es₁ es₂ : List Entry) :
    encodeLog (es₁ ++ es₂) = encodeLog es₁ ++ encodeLog es₂ := by
  simp [encodeLog]

/-! ## The storage handle and its operations -/

/-- The `Wal` storage handle: the file contents and the write cursor
(`pos`).  In every quiescent reachable state `pos` equals the file
length. -/
structure State where
  file : List Nat
  pos : Nat
deriving DecidableEq

/-- `Wal.writeRecord` (happy path): write the header at `pos`, the payload
at `pos + RecordHeaderSize`, advance the cursor by `len(p) +
RecordHeaderSize`, and return the record's position (the old cursor). -/
def State.writeRecord (w : State) (p : List Nat) : State × Nat :=
  ({ file := writeAt (writeAt w.file w.pos (encodeHeader (crc32 p) p.length))
       (w.pos + RecordHeaderSize) p,
     pos := w.pos + (p.length + RecordHeaderSize) }, w.pos)

/-- `Wal.writeSyncRecord` (happy path): write a zero header at the cursor,
advance by `RecordHeaderSize`, and flush. -/
def State.writeSyncRecord (w : State) : State :=
  { file := writeAt w.file w.pos (encodeHeader 0 0),
    pos := w.pos + RecordHeaderSize }

/-- One batch of the committer loop in `syncLoop` (happy path): write each
request's record in order, collecting assigned positions, then append one
sync record. -/
def State.commitBatch (w : State) (ps : List (List Nat)) : State × List Nat :=
  let step := ps.foldl
    (fun (acc : State × List Nat) p =>
      let r := acc.1.writeRecord p
      (r.1, acc.2 ++ [r.2]))
    (w, [])
  (step.1.writeSyncRecord, step.2)

/-- A sequence of committer batches, concatenating the assigned positions
in completion order. -/
def State.commitBatches (w : State) : List (List (List Nat)) → State × List Nat
  | [] => (w, [])
  | ps :: bs =>
    let r := w.commitBatch ps
    let rest := r.1.commitBatches bs
    (rest.1, r.2 ++ rest.2)

/-- `Wal.TruncateBefore` (happy path): the live file is replaced by a copy
of its bytes from `pos` on (`backup("temp", pos)` plus rename), and the
cursor is recomputed as the new file's size. -/
def State.truncateBefore (w : State) (pos : Nat) : State :=
  { file := w.file.drop pos, pos := w.file.length - pos }

/-- `Wal.TruncateAfter` (happy path): physically truncate the file to `pos`
bytes, store `pos` as the cursor, then write a sync record. -/
def State.truncateAfter (w : State) (pos : Nat) : State :=
  State.writeSyncRecord { file := truncateFile w.file pos, pos := pos }

/-- `Wal.recovery` as run by `Open` (after `pos` is initialised to the file
size): scan, truncate, store the boundary. -/
def State.recover (file : List Nat) : State :=
  { file := (recovery file).1, pos := (recovery file).2 }

/-! ## Parsing encoded entries -/

/-- The payload carried by an entry (empty for a sync marker). -/
def entryData : Entry → List Nat
  | .data p => p
  | .sync => []

theorem crc32_lt (p : List Nat) : crc32 p < 2 ^ 32 :=
  Nat.xor_lt_two_pow (foldl_crcUpdate_lt (by norm_num) p) (by norm_num)

theorem crc32_nil : crc32 [] = 0 := by
  simp [crc32]

/-- Reading at the start of an encoded well-formed entry succeeds, yields
its payload, and advances to the next entry boundary. -/
theorem readRecord_at_entry (A B : List Nat) (e : Entry) (hWF : entryWF e = true) :
    readRecord (A ++ encodeEntry e ++ B) A.length
      = .ok (entryData e, A.length + (encodeEntry e).length) := by
  cases e with
  | data p =>
    simp only [entryWF, Bool.and_eq_true, decide_eq_true_eq] at hWF
    obtain ⟨hpos, hlt⟩ := hWF
    have hH : encodeEntry (.data p) = encodeHeader (crc32 p) p.length ++ p := rfl
    have hHlen : (encodeHeader (crc32 p) p.length).length = RecordHeaderSize :=
      encodeHeader_length _ _
    have hF : A ++ encodeEntry (.data p) ++ B
        = A ++ (encodeHeader (crc32 p) p.length ++ (p ++ B)) := by
      simp [hH, List.append_assoc]
    have hFlen : (A ++ encodeEntry (.data p) ++ B).length
        = A.length + (RecordHeaderSize + p.length) + B.length := by
      simp [hH, List.length_append, RecordHeaderSize, encodeHeader, le32]
      omega
    have hdrop1 : (A ++ encodeEntry (.data p) ++ B).drop A.length
        = encodeHeader (crc32 p) p.length ++ (p ++ B) := by
      rw [hF, List.drop_left]
    have hhb : readAtExact (A ++ encodeEntry (.data p) ++ B) A.length RecordHeaderSize
        = some (encodeHeader (crc32 p) p.length) := by
      unfold readAtExact
      rw [if_pos (by omega)]
      rw [hdrop1, ← hHlen, List.take_left]
    have hF2 : A ++ encodeEntry (.data p) ++ B
        = (A ++ encodeHeader (crc32 p) p.length) ++ (p ++ B) := by
      simp [hH, List.append_assoc]
    have hdrop2 : (A ++ encodeEntry (.data p) ++ B).drop (A.length + RecordHeaderSize)
        = p ++ B := by
      rw [hF2]
      have : A.length + RecordHeaderSize
          = (A ++ encodeHeader (crc32 p) p.length).length := by
        simp [hHlen]
      rw [this, List.drop_left]
    have hsize : readLe32 ((encodeHeader (crc32 p) p.length).drop 4) = p.length := by
      have : (encodeHeader (crc32 p) p.length).drop 4 = le32 p.length := by
        simp [encodeHeader, le32]
      rw [this, ← List.append_nil (le32 p.length), readLe32_le32 _ _ hlt]
    have hsum : readLe32 (encodeHeader (crc32 p) p.length) = crc32 p := by
      unfold encodeHeader
      exact readLe32_le32 _ _ (crc32_lt p)
    have hdata : readAtExact (A ++ encodeEntry (.data p) ++ B)
        (A.length + RecordHeaderSize) (readLe32 ((encodeHeader (crc32 p) p.length).drop 4))
        = some p := by
      unfold readAtExact
      rw [hsize, if_pos (by omega), hdrop2, List.take_left]
    unfold readRecord
    rw [hhb]
    dsimp only
    rw [hdata]
    dsimp only
    rw [hsum, if_pos rfl, hsize]
    have hEl : (encodeEntry (.data p)).length = RecordHeaderSize + p.length := by
      simp [hH, hHlen]
    rw [hEl]
    simp only [entryData]
    simp [Nat.add_assoc]
  | sync =>
    have hH : encodeEntry .sync = encodeHeader 0 0 := rfl
    have hHlen : (encodeHeader 0 0).length = RecordHeaderSize := encodeHeader_length _ _
    have hF : A ++ encodeEntry .sync ++ B = A ++ (encodeHeader 0 0 ++ B) := by
      simp [hH, List.append_assoc]
    have hFlen : (A ++ encodeEntry .sync ++ B).length
        = A.length + RecordHeaderSize + B.length := by
      simp [hH, List.length_append, RecordHeaderSize, encodeHeader, le32]
      omega
    have hdrop1 : (A ++ encodeEntry .sync ++ B).drop A.length
        = encodeHeader 0 0 ++ B := by
      rw [hF, List.drop_left]
    have hhb : readAtExact (A ++ encodeEntry .sync ++ B) A.length RecordHeaderSize
        = some (encodeHeader 0 0) := by
      unfold readAtExact
      rw [if_pos (by omega)]
      rw [hdrop1, ← hHlen, List.take_left]
    have hsize : readLe32 ((encodeHeader 0 0).drop 4) = 0 := by
      simp [encodeHeader, le32, readLe32]
    have hsum : readLe32 (encodeHeader 0 0) = 0 := by
      simp [encodeHeader, le32, readLe32]
    have hdata : readAtExact (A ++ encodeEntry .sync ++ B)
        (A.length + RecordHeaderSize) (readLe32 ((encodeHeader 0 0).drop 4))
        = some [] := by
      unfold readAtExact
      rw [hsize, if_pos (by omega)]
      simp
    unfold readRecord
    rw [hhb]
    dsimp only
    rw [hdata]
    dsimp only
    rw [hsum, hsize, if_pos (by rw [crc32_nil])]
    simp [entryData, hH, hHlen]

/-- What one `Next` call yields on a log laid out from `base`: the first
data record (its offset, payload, and the cursor after it), or `none` if
only sync markers remain. -/
def firstRec (base : Nat) : List Entry → Option (Nat × List Nat × Nat)
  | [] => none
  | .sync :: es => firstRec (base + RecordHeaderSize) es
  | .data p :: _ => some (base, p, base + RecordHeaderSize + p.length)

theorem encodeLog_length_ge (es : List Entry) :
    es.length ≤ (encodeLog es).length := by
  induction es with
  | nil => simp [encodeLog]
  | cons e es ih =>
    rw [encodeLog_cons, List.length_append]
    have := encodeEntry_length_ge e
    have h8 : RecordHeaderSize = 8 := rfl
    simp only [List.length_cons]
    omega

theorem logWF_cons {e : Entry} {es : List Entry} (h : logWF (e :: es) = true) :
    entryWF e = true ∧ logWF es = true := by
  simp only [logWF, List.all_cons, Bool.and_eq_true] at h
  exact h

/-- One `Next` call on a reader positioned at an entry boundary of a
well-formed log region, with the snapshot ending at the region's end. -/
theorem nextAux_at_log (B : List Nat) :
    ∀ (fuel : Nat) (es : List Entry) (A : List Nat), logWF es = true →
      es.length < fuel →
      nextAux (A ++ encodeLog es ++ B) (A.length + (encodeLog es).length) fuel A.length
        = .ok (firstRec A.length es) := by
  intro fuel
  induction fuel with
  | zero => intro es A _ h; omega
  | succ fuel ih =>
    intro es A hWF hlen
    cases es with
    | nil =>
      unfold nextAux
      rw [if_pos (by simp [encodeLog])]
      rfl
    | cons e es =>
      obtain ⟨hWFe, hWFes⟩ := logWF_cons hWF
      have hge := encodeEntry_length_ge e
      have h8 : RecordHeaderSize = 8 := rfl
      have hsplit : A ++ encodeLog (e :: es) ++ B
          = A ++ encodeEntry e ++ (encodeLog es ++ B) := by
        rw [encodeLog_cons]
        simp [List.append_assoc]
      have hlog : (encodeLog (e :: es)).length
          = (encodeEntry e).length + (encodeLog es).length := by
        rw [encodeLog_cons, List.length_append]
      have hread : readRecord (A ++ encodeLog (e :: es) ++ B) A.length
          = .ok (entryData e, A.length + (encodeEntry e).length) := by
        rw [hsplit]
        exact readRecord_at_entry A (encodeLog es ++ B) e hWFe
      unfold nextAux
      rw [if_neg (by omega), hread]
      dsimp only
      cases e with
      | sync =>
        rw [if_pos (by simp [entryData])]
        have hA : (A ++ encodeEntry Entry.sync).length
            = A.length + (encodeEntry Entry.sync).length := by
          simp
        have hfile : A ++ encodeLog (Entry.sync :: es) ++ B
            = (A ++ encodeEntry Entry.sync) ++ encodeLog es ++ B := by
          rw [hsplit]; simp [List.append_assoc]
        have hsize : A.length + (encodeLog (Entry.sync :: es)).length
            = (A ++ encodeEntry Entry.sync).length + (encodeLog es).length := by
          rw [hA, hlog]; omega
        have hpos : A.length + (encodeEntry Entry.sync).length
            = (A ++ encodeEntry Entry.sync).length := hA.symm
        have hEsync : (encodeEntry Entry.sync).length = RecordHeaderSize := rfl
        rw [hEsync] at hpos ⊢
        rw [hfile, hsize, hpos, ih es _ hWFes (by simpa using hlen)]
        have : firstRec A.length (Entry.sync :: es)
            = firstRec (A.length + RecordHeaderSize) es := rfl
        rw [this, hA, hEsync]
      | data p =>
        have hp : 0 < p.length := by
          simp only [entryWF, Bool.and_eq_true, decide_eq_true_eq] at hWFe
          exact hWFe.1
        rw [if_neg (by simp only [entryData]; omega)]
        have hlen2 : (encodeEntry (Entry.data p)).length
            = RecordHeaderSize + p.length := by
          simp only [encodeEntry, encodeHeader, le32, List.length_append,
            List.length_cons, List.length_nil, RecordHeaderSize]
        simp only [entryData, firstRec, hlen2]
        have e1 : A.length + (RecordHeaderSize + p.length) - (p.length + RecordHeaderSize)
            = A.length := by omega
        have e2 : A.length + (RecordHeaderSize + p.length)
            = A.length + RecordHeaderSize + p.length := by omega
        rw [e1, e2]

/-- `Reader.Next` on an entry boundary of a well-formed log region. -/
theorem next_at_log (A B : List Nat) (es : List Entry) (hWF : logWF es = true) :
    next (A ++ encodeLog es ++ B) (A.length + (encodeLog es).length) A.length
      = .ok (firstRec A.length es) := by
  have h1 := encodeLog_length_ge es
  have h2 : (encodeLog es).length ≤ (A ++ encodeLog es ++ B).length := by
    simp only [List.length_append]
    omega
  exact nextAux_at_log B _ es A hWF (by omega)

theorem encodeEntry_data_length (p : List Nat) :
    (encodeEntry (.data p)).length = RecordHeaderSize + p.length := by
  simp only [encodeEntry, List.length_append, encodeHeader_length]

theorem encodeEntry_sync_length : (encodeEntry .sync).length = RecordHeaderSize := rfl

/-- Only sync markers left means no data records. -/
theorem firstRec_none :
    ∀ (es : List Entry) (base : Nat), firstRec base es = none →
      logRecords base es = [] := by
  intro es
  induction es with
  | nil => intro base _; rfl
  | cons e es ih =>
    intro base h
    cases e with
    | sync => exact ih (base + RecordHeaderSize) h
    | data p => exact absurd h (by simp [firstRec])

/-- A log whose first data record is `(s, d)` splits as leading sync
markers, that record, and a remainder starting at the returned cursor. -/
theorem firstRec_some :
    ∀ (es : List Entry) (base s : Nat) (d : List Nat) (np : Nat),
      firstRec base es = some (s, d, np) →
      ∃ pre es₂, es = pre ++ Entry.data d :: es₂ ∧
        (∀ e ∈ pre, e = Entry.sync) ∧
        s = base + (encodeLog pre).length ∧
        np = s + RecordHeaderSize + d.length ∧
        logRecords base es = (s, d) :: logRecords np es₂ := by
  intro es
  induction es with
  | nil => intro base s d np h; exact absurd h (by simp [firstRec])
  | cons e es ih =>
    intro base s d np h
    cases e with
    | sync =>
      obtain ⟨pre, es₂, h1, h2, h3, h4, h5⟩ := ih (base + RecordHeaderSize) s d np h
      refine ⟨Entry.sync :: pre, es₂, by rw [h1]; rfl, ?_, ?_, h4, ?_⟩
      · intro e he
        rcases List.mem_cons.mp he with rfl | he
        · rfl
        · exact h2 e he
      · rw [h3, encodeLog_cons, List.length_append, encodeEntry_sync_length]
        omega
      · exact h5
    | data p =>
      simp only [firstRec, Option.some.injEq, Prod.mk.injEq] at h
      obtain ⟨rfl, rfl, rfl⟩ := h
      exact ⟨[], es, rfl, by simp, by simp [encodeLog], rfl, rfl⟩

theorem logWF_append {es₁ es₂ : List Entry} :
    logWF (es₁ ++ es₂) = true ↔ logWF es₁ = true ∧ logWF es₂ = true := by
  simp [logWF, List.all_append]

/-- A full reader scan of a well-formed log region laid out after a prefix
`A`, with the snapshot ending at the region's end, yields exactly the
region's data records with their positions. -/
theorem scanAux_at_log :
    ∀ (fuel : Nat) (es : List Entry) (A B : List Nat), logWF es = true →
      es.length < fuel →
      scanAux (A ++ encodeLog es ++ B) (A.length + (encodeLog es).length) fuel A.length
        = .ok (logRecords A.length es) := by
  intro fuel
  induction fuel with
  | zero => intro es A B _ h; omega
  | succ fuel ih =>
    intro es A B hWF hlen
    unfold scanAux
    rw [next_at_log A B es hWF]
    cases hfr : firstRec A.length es with
    | none => rw [firstRec_none es A.length hfr]
    | some r =>
      obtain ⟨s, d, np⟩ := r
      obtain ⟨pre, es₂, h1, _h2, h3, h4, h5⟩ := firstRec_some es A.length s d np hfr
      have hWF₂ : logWF es₂ = true := by
        rw [h1] at hWF
        have := (logWF_append.mp hWF).2
        exact (logWF_cons this).2
      have hsplitlog : encodeLog es = encodeLog (pre ++ [Entry.data d]) ++ encodeLog es₂ := by
        rw [h1, show pre ++ Entry.data d :: es₂ = (pre ++ [Entry.data d]) ++ es₂ by simp,
          encodeLog_append]
      have hA' : (A ++ encodeLog (pre ++ [Entry.data d])).length = np := by
        simp only [List.length_append]
        rw [encodeLog_append, List.length_append, encodeLog_cons, encodeLog_nil,
          List.append_nil, encodeEntry_data_length]
        omega
      have hfile : A ++ encodeLog es ++ B
          = (A ++ encodeLog (pre ++ [Entry.data d])) ++ encodeLog es₂ ++ B := by
        rw [hsplitlog]
        simp [List.append_assoc]
      have hsize : A.length + (encodeLog es).length
          = (A ++ encodeLog (pre ++ [Entry.data d])).length + (encodeLog es₂).length := by
        rw [hsplitlog]
        simp only [List.length_append]
        omega
      have hlen₂ : es₂.length < fuel := by
        have : es.length = pre.length + 1 + es₂.length := by
          rw [h1]; simp; omega
        omega
      have hrec := ih es₂ (A ++ encodeLog (pre ++ [Entry.data d])) B hWF₂ hlen₂
      rw [hA'] at hrec
      dsimp only
      rw [hfile, hsize, hA', hrec]
      dsimp only
      rw [h5]

/-- Scanning a well-formed region from its start with the wrapper fuel. -/
theorem readAll_at_log (A B : List Nat) (es : List Entry) (hWF : logWF es = true) :
    readAll (A ++ encodeLog es ++ B) (A.length + (encodeLog es).length) A.length
      = .ok (logRecords A.length es) := by
  have h1 := encodeLog_length_ge es
  have h2 : (encodeLog es).length ≤ (A ++ encodeLog es ++ B).length := by
    simp only [List.length_append]
    omega
  exact scanAux_at_log _ es A B hWF (by omega)


/-- The recovery scan over a well-formed region followed by bytes that do
not parse (or leave no room for a header) computes the last sync-marker
boundary of the region. -/
theorem recoveryScanAux_at_log :
    ∀ (fuel : Nat) (es : List Entry) (A junk : List Nat) (acc : Nat),
      logWF es = true → es.length < fuel →
      ((A ++ encodeLog es ++ junk).length
          < A.length + (encodeLog es).length + RecordHeaderSize ∨
        ∃ e, readRecord (A ++ encodeLog es ++ junk)
          (A.length + (encodeLog es).length) = .error e) →
      recoveryScanAux (A ++ encodeLog es ++ junk) fuel A.length acc
        = lastSyncEnd A.length acc es := by
  intro fuel
  induction fuel with
  | zero => intro es A junk acc _ h; omega
  | succ fuel ih =>
    intro es A junk acc hWF hlen hstop
    cases es with
    | nil =>
      unfold recoveryScanAux
      simp only [encodeLog_nil, List.append_nil, List.length_nil, Nat.add_zero]
        at hstop ⊢
      rcases hstop with hlt | ⟨e, herr⟩
      · rw [if_pos hlt]
        rfl
      · by_cases hlt : (A ++ junk).length < A.length + RecordHeaderSize
        · rw [if_pos hlt]
          rfl
        · rw [if_neg hlt, herr]
          rfl
    | cons e es =>
      obtain ⟨hWFe, hWFes⟩ := logWF_cons hWF
      have hge := encodeEntry_length_ge e
      have h8 : RecordHeaderSize = 8 := rfl
      have hsplit : A ++ encodeLog (e :: es) ++ junk
          = A ++ encodeEntry e ++ (encodeLog es ++ junk) := by
        rw [encodeLog_cons]
        simp [List.append_assoc]
      have hlog : (encodeLog (e :: es)).length
          = (encodeEntry e).length + (encodeLog es).length := by
        rw [encodeLog_cons, List.length_append]
      have hflen : (A ++ encodeLog (e :: es) ++ junk).length
          = A.length + (encodeLog (e :: es)).length + junk.length := by
        simp only [List.length_append]
      have hread : readRecord (A ++ encodeLog (e :: es) ++ junk) A.length
          = .ok (entryData e, A.length + (encodeEntry e).length) := by
        rw [hsplit]
        exact readRecord_at_entry A (encodeLog es ++ junk) e hWFe
      unfold recoveryScanAux
      rw [if_neg (by omega), hread]
      dsimp only
      have hfile : A ++ encodeLog (e :: es) ++ junk
          = (A ++ encodeEntry e) ++ encodeLog es ++ junk := by
        rw [hsplit]; simp [List.append_assoc]
      have hA : (A ++ encodeEntry e).length = A.length + (encodeEntry e).length := by
        simp
      have hstop2 : ((A ++ encodeEntry e) ++ encodeLog es ++ junk).length
          < (A ++ encodeEntry e).length + (encodeLog es).length + RecordHeaderSize ∨
          ∃ er, readRecord ((A ++ encodeEntry e) ++ encodeLog es ++ junk)
            ((A ++ encodeEntry e).length + (encodeLog es).length) = .error er := by
        rw [← hfile, hA]
        have hoff : A.length + (encodeEntry e).length + (encodeLog es).length
            = A.length + (encodeLog (e :: es)).length := by omega
        rw [hoff]
        exact hstop
      have hrec := ih es (A ++ encodeEntry e) junk
        (if (entryData e).length = 0 then A.length + (encodeEntry e).length else acc)
        hWFes (by simpa using hlen) hstop2
      rw [hA] at hrec
      rw [hfile, hrec]
      cases e with
      | sync =>
        rw [if_pos (by simp [entryData])]
        rw [encodeEntry_sync_length]
        rfl
      | data p =>
        have hp : 0 < p.length := by
          simp only [entryWF, Bool.and_eq_true, decide_eq_true_eq] at hWFe
          exact hWFe.1
        rw [if_neg (by simp only [entryData]; omega)]
        rw [encodeEntry_data_length]
        have : A.length + (RecordHeaderSize + p.length)
            = A.length + RecordHeaderSize + p.length := by omega
        rw [this]
        rfl

/-! ## What the committer produces -/

/-- The entries one committer batch appends: one data record per request,
then one sync marker. -/
def batchEntries (ps : List (List Nat)) : List Entry :=
  ps.map Entry.data ++ [Entry.sync]

/-- The entries a sequence of batches appends. -/
def batchesEntries (bs : List (List (List Nat))) : List Entry :=
  (bs.map batchEntries).flatten

/-- The positions `writeRecord` assigns to the requests of one batch
written starting at cursor `base`. -/
def recPositions (base : Nat) : List (List Nat) → List Nat
  | [] => []
  | p :: ps => base :: recPositions (base + (p.length + RecordHeaderSize)) ps

/-- The positions assigned across a sequence of batches. -/
def allRecPositions (base : Nat) : List (List (List Nat)) → List Nat
  | [] => []
  | ps :: bs => recPositions base ps
      ++ allRecPositions (base + (encodeLog (batchEntries ps)).length) bs

theorem State.writeRecord_spec (w : State) (p : List Nat) (hw : w.pos = w.file.length) :
    w.writeRecord p
      = ({ file := w.file ++ encodeEntry (.data p),
           pos := w.pos + (p.length + RecordHeaderSize) }, w.pos) := by
  unfold State.writeRecord
  rw [writeAt_append _ _ _ hw]
  rw [writeAt_append _ _ _ (by simp [encodeHeader_length, hw])]
  rw [show (encodeEntry (.data p))
      = encodeHeader (crc32 p) p.length ++ p from rfl, List.append_assoc]

theorem State.writeSyncRecord_spec (w : State) (hw : w.pos = w.file.length) :
    w.writeSyncRecord
      = { file := w.file ++ encodeEntry .sync, pos := w.pos + RecordHeaderSize } := by
  unfold State.writeSyncRecord
  rw [writeAt_append _ _ _ hw]
  rfl

theorem commitFold_spec :
    ∀ (ps : List (List Nat)) (w : State) (acc : List Nat), w.pos = w.file.length →
      ps.foldl
        (fun (acc : State × List Nat) p =>
          let r := acc.1.writeRecord p
          (r.1, acc.2 ++ [r.2]))
        (w, acc)
      = ({ file := w.file ++ encodeLog (ps.map Entry.data),
           pos := w.pos + (encodeLog (ps.map Entry.data)).length },
         acc ++ recPositions w.pos ps) := by
  intro ps
  induction ps with
  | nil =>
    intro w acc hw
    simp [encodeLog, recPositions]
  | cons p ps ih =>
    intro w acc hw
    rw [List.foldl_cons]
    have hW := State.writeRecord_spec w p hw
    dsimp only
    rw [hW]
    have hw₁ : (w.pos + (p.length + RecordHeaderSize))
        = (w.file ++ encodeEntry (.data p)).length := by
      simp only [List.length_append, encodeEntry_data_length]
      omega
    have := ih { file := w.file ++ encodeEntry (.data p),
                 pos := w.pos + (p.length + RecordHeaderSize) } (acc ++ [w.pos]) hw₁
    rw [this]
    simp only [Prod.mk.injEq, State.mk.injEq]
    refine ⟨⟨?_, ?_⟩, ?_⟩
    · rw [List.map_cons, encodeLog_cons, List.append_assoc]
    · rw [List.map_cons, encodeLog_cons, List.length_append, encodeEntry_data_length]
      omega
    · rw [show recPositions w.pos (p :: ps)
          = w.pos :: recPositions (w.pos + (p.length + RecordHeaderSize)) ps from rfl]
      simp

theorem State.commitBatch_spec (w : State) (ps : List (List Nat))
    (hw : w.pos = w.file.length) :
    w.commitBatch ps
      = ({ file := w.file ++ encodeLog (batchEntries ps),
           pos := w.pos + (encodeLog (batchEntries ps)).length },
         recPositions w.pos ps) := by
  unfold State.commitBatch
  rw [commitFold_spec ps w [] hw]
  dsimp only
  have hw₂ : (w.pos + (encodeLog (ps.map Entry.data)).length)
      = (w.file ++ encodeLog (ps.map Entry.data)).length := by
    simp only [List.length_append]
    omega
  rw [State.writeSyncRecord_spec _ hw₂]
  simp only [Prod.mk.injEq, State.mk.injEq, List.nil_append]
  refine ⟨⟨?_, ?_⟩, trivial⟩
  · rw [batchEntries, encodeLog_append, List.append_assoc]
    rfl
  · rw [batchEntries, encodeLog_append, List.length_append]
    have : (encodeLog [Entry.sync]).length = RecordHeaderSize := rfl
    rw [this]
    rfl

theorem State.commitBatches_spec :
    ∀ (bs : List (List (List Nat))) (w : State), w.pos = w.file.length →
      w.commitBatches bs
        = ({ file := w.file ++ encodeLog (batchesEntries bs),
             pos := w.pos + (encodeLog (batchesEntries bs)).length },
           allRecPositions w.pos bs) := by
  intro bs
  induction bs with
  | nil =>
    intro w hw
    simp [State.commitBatches, batchesEntries, encodeLog, allRecPositions]
  | cons ps bs ih =>
    intro w hw
    unfold State.commitBatches
    rw [State.commitBatch_spec w ps hw]
    dsimp only
    have hw₁ : (w.pos + (encodeLog (batchEntries ps)).length)
        = (w.file ++ encodeLog (batchEntries ps)).length := by
      simp only [List.length_append]
      omega
    rw [ih _ hw₁]
    have hbe : batchesEntries (ps :: bs) = batchEntries ps ++ batchesEntries bs := by
      simp [batchesEntries]
    simp only [Prod.mk.injEq, State.mk.injEq]
    refine ⟨⟨?_, ?_⟩, rfl⟩
    · rw [hbe, encodeLog_append, List.append_assoc]
    · rw [hbe, encodeLog_append, List.length_append]
      omega

/-! ## Ordering and pairing of assigned positions -/

theorem batchEntries_log_length (ps : List (List Nat)) :
    (encodeLog (batchEntries ps)).length
      = (encodeLog (ps.map Entry.data)).length + RecordHeaderSize := by
  rw [batchEntries, encodeLog_append, List.length_append]
  rfl

theorem recPositions_ge :
    ∀ (ps : List (List Nat)) (base : Nat), ∀ x ∈ recPositions base ps, base ≤ x := by
  intro ps
  induction ps with
  | nil => intro base x hx; simp [recPositions] at hx
  | cons p ps ih =>
    intro base x hx
    rcases List.mem_cons.mp hx with rfl | hx
    · exact le_refl _
    · have := ih _ x hx
      omega

theorem recPositions_lt :
    ∀ (ps : List (List Nat)) (base : Nat), ∀ x ∈ recPositions base ps,
      x < base + (encodeLog (ps.map Entry.data)).length := by
  intro ps
  induction ps with
  | nil => intro base x hx; simp [recPositions] at hx
  | cons p ps ih =>
    intro base x hx
    have hlen : (encodeLog ((p :: ps).map Entry.data)).length
        = (p.length + RecordHeaderSize) + (encodeLog (ps.map Entry.data)).length := by
      rw [List.map_cons, encodeLog_cons, List.length_append, encodeEntry_data_length]
      omega
    have h8 : 0 < RecordHeaderSize := by norm_num [RecordHeaderSize]
    rcases List.mem_cons.mp hx with rfl | hx
    · omega
    · have := ih _ x hx
      omega

theorem recPositions_pairwise :
    ∀ (ps : List (List Nat)) (base : Nat),
      (recPositions base ps).Pairwise (· < ·) := by
  intro ps
  induction ps with
  | nil => intro base; simp [recPositions]
  | cons p ps ih =>
    intro base
    rw [show recPositions base (p :: ps)
        = base :: recPositions (base + (p.length + RecordHeaderSize)) ps from rfl]
    refine List.Pairwise.cons ?_ (ih _)
    intro x hx
    have := recPositions_ge ps _ x hx
    have h8 : 0 < RecordHeaderSize := by norm_num [RecordHeaderSize]
    omega

theorem allRecPositions_ge :
    ∀ (bs : List (List (List Nat))) (base : Nat),
      ∀ x ∈ allRecPositions base bs, base ≤ x := by
  intro bs
  induction bs with
  | nil => intro base x hx; simp [allRecPositions] at hx
  | cons ps bs ih =>
    intro base x hx
    rcases List.mem_append.mp hx with hx | hx
    · exact recPositions_ge ps base x hx
    · have := ih _ x hx
      omega

theorem allRecPositions_pairwise :
    ∀ (bs : List (List (List Nat))) (base : Nat),
      (allRecPositions base bs).Pairwise (· < ·) := by
  intro bs
  induction bs with
  | nil => intro base; simp [allRecPositions]
  | cons ps bs ih =>
    intro base
    rw [show allRecPositions base (ps :: bs)
        = recPositions base ps
            ++ allRecPositions (base + (encodeLog (batchEntries ps)).length) bs from rfl]
    rw [List.pairwise_append]
    refine ⟨recPositions_pairwise ps base, ih _, ?_⟩
    intro a ha b hb
    have h1 := recPositions_lt ps base a ha
    have h2 := allRecPositions_ge bs _ b hb
    have h3 := batchEntries_log_length ps
    have h8 : 0 < RecordHeaderSize := by norm_num [RecordHeaderSize]
    omega

theorem logRecords_append :
    ∀ (es₁ es₂ : List Entry) (base : Nat),
      logRecords base (es₁ ++ es₂)
        = logRecords base es₁ ++ logRecords (base + (encodeLog es₁).length) es₂ := by
  intro es₁
  induction es₁ with
  | nil => intro es₂ base; simp [logRecords, encodeLog]
  | cons e es₁ ih =>
    intro es₂ base
    cases e with
    | sync =>
      rw [show (Entry.sync :: es₁) ++ es₂ = Entry.sync :: (es₁ ++ es₂) from rfl]
      rw [show logRecords base (Entry.sync :: (es₁ ++ es₂))
          = logRecords (base + RecordHeaderSize) (es₁ ++ es₂) from rfl]
      rw [ih es₂ (base + RecordHeaderSize)]
      rw [show logRecords base (Entry.sync :: es₁)
          = logRecords (base + RecordHeaderSize) es₁ from rfl]
      rw [encodeLog_cons, List.length_append, encodeEntry_sync_length]
      congr 2
      omega
    | data p =>
      rw [show (Entry.data p :: es₁) ++ es₂ = Entry.data p :: (es₁ ++ es₂) from rfl]
      rw [show logRecords base (Entry.data p :: (es₁ ++ es₂)) = (base, p)
          :: logRecords (base + RecordHeaderSize + p.length) (es₁ ++ es₂) from rfl]
      rw [ih es₂ (base + RecordHeaderSize + p.length)]
      rw [show logRecords base (Entry.data p :: es₁) = (base, p)
          :: logRecords (base + RecordHeaderSize + p.length) es₁ from rfl]
      rw [encodeLog_cons, List.length_append, encodeEntry_data_length]
      simp only [List.cons_append]
      congr 3
      omega

theorem recPositions_length (ps : List (List Nat)) (base : Nat) :
    (recPositions base ps).length = ps.length := by
  induction ps generalizing base with
  | nil => rfl
  | cons p ps ih => simp [recPositions, ih]

theorem logRecords_map_data :
    ∀ (ps : List (List Nat)) (base : Nat),
      logRecords base (ps.map Entry.data) = (recPositions base ps).zip ps := by
  intro ps
  induction ps with
  | nil => intro base; rfl
  | cons p ps ih =>
    intro base
    rw [List.map_cons]
    rw [show logRecords base (Entry.data p :: ps.map Entry.data) = (base, p)
        :: logRecords (base + RecordHeaderSize + p.length) (ps.map Entry.data) from rfl]
    rw [show recPositions base (p :: ps)
        = base :: recPositions (base + (p.length + RecordHeaderSize)) ps from rfl]
    rw [List.zip_cons_cons, ih]
    rw [show base + RecordHeaderSize + p.length
        = base + (p.length + RecordHeaderSize) from by omega]

theorem logRecords_batchEntries (ps : List (List Nat)) (base : Nat) :
    logRecords base (batchEntries ps) = (recPositions base ps).zip ps := by
  rw [batchEntries, logRecords_append, logRecords_map_data]
  rw [show ∀ b, logRecords b [Entry.sync] = [] from fun b => rfl]
  simp

theorem logRecords_batchesEntries :
    ∀ (bs : List (List (List Nat))) (base : Nat),
      logRecords base (batchesEntries bs)
        = (allRecPositions base bs).zip bs.flatten := by
  intro bs
  induction bs with
  | nil => intro base; rfl
  | cons ps bs ih =>
    intro base
    have hbe : batchesEntries (ps :: bs) = batchEntries ps ++ batchesEntries bs := by
      simp [batchesEntries]
    rw [hbe, logRecords_append, logRecords_batchEntries, ih]
    rw [show allRecPositions base (ps :: bs) = recPositions base ps
        ++ allRecPositions (base + (encodeLog (batchEntries ps)).length) bs from rfl]
    rw [show (ps :: bs).flatten = ps ++ bs.flatten from rfl]
    rw [List.zip_append (recPositions_length ps base)]

/-! ## Committer error propagation

`syncLoop` processes a batch as: `req.pos, req.err = w.writeRecord(req.data)`
for each request, then `err := w.writeSyncRecord()`, then the completion
loop `for _, req := range reqs { if req.err != nil { req.err = err };
req.wg.Done() }`.  Physical write outcomes are inputs here: each request's
`(pos, err)` pair from its record write, and the sync/flush result. -/

/-- The completion loop of one `syncLoop` batch: given each request's
`(pos, err)` after its record write and the sync-record result `syncErr`,
the `(pos, err)` pair each caller's `Write` returns.  This transcribes
`if req.err != nil { req.err = err }`. -/
def finishBatch (results : List (Int × Option String)) (syncErr : Option String) :
    List (Int × Option String) :=
  results.map fun r => (r.1, if r.2.isSome then syncErr else r.2)

/-! ## Lock discipline

Which hold on the `Wal`'s `sync.RWMutex` each exported operation acquires
for its duration, transcribed from the lock calls in `wal.go`. -/

/-- The kind of hold an operation takes on the storage handle's mutex. -/
inductive LockMode where
  | shared : LockMode
  | exclusive : LockMode
  | noLock : LockMode
deriving DecidableEq

/-- The exported operations of the package. -/
inductive ApiOp where
  | write : ApiOp
  | newReader : ApiOp
  | truncateBefore : ApiOp
  | truncateAfter : ApiOp
  | backup : ApiOp
  | recoverFromBackup : ApiOp
  | close : ApiOp
deriving DecidableEq

/-- The hold each operation acquires, read off the source: `Write` and
`NewReader` call `w.RLock()`; `TruncateBefore`, `TruncateAfter`, `Backup`
and `Close` call `w.Lock()`; `RecoverFromBackup` calls neither — its body
is only `os.Remove` plus the unexported `recoverFromBackup`, which also
takes no lock. -/
def lockAcquired : ApiOp → LockMode
  | .write => .shared
  | .newReader => .shared
  | .truncateBefore => .exclusive
  | .truncateAfter => .exclusive
  | .backup => .exclusive
  | .recoverFromBackup => .noLock
  | .close => .exclusive

/-! ## Remaining helper lemmas -/

theorem truncateFile_le {file : List Nat} {n : Nat} (h : n ≤ file.length) :
    truncateFile file n = file.take n := by
  unfold truncateFile
  rw [show n - file.length = 0 from by omega]
  simp

/-- Shifting the layout base shifts every record position. -/
theorem logRecords_shift :
    ∀ (es : List Entry) (b c : Nat),
      logRecords b es = (logRecords (b + c) es).map fun r => (r.1 - c, r.2) := by
  intro es
  induction es with
  | nil => intro b c; rfl
  | cons e es ih =>
    intro b c
    cases e with
    | sync =>
      rw [show logRecords b (Entry.sync :: es)
          = logRecords (b + RecordHeaderSize) es from rfl]
      rw [show logRecords (b + c) (Entry.sync :: es)
          = logRecords (b + c + RecordHeaderSize) es from rfl]
      rw [show b + c + RecordHeaderSize = b + RecordHeaderSize + c from by omega]
      exact ih _ c
    | data p =>
      rw [show logRecords b (Entry.data p :: es)
          = (b, p) :: logRecords (b + RecordHeaderSize + p.length) es from rfl]
      rw [show logRecords (b + c) (Entry.data p :: es)
          = (b + c, p) :: logRecords (b + c + RecordHeaderSize + p.length) es from rfl]
      rw [List.map_cons]
      rw [show b + c + RecordHeaderSize + p.length
          = b + RecordHeaderSize + p.length + c from by omega]
      rw [← ih _ c]
      rw [show b + c - c = b from by omega]

/-- A log ending in a sync marker has its last sync boundary at its end. -/
theorem lastSyncEnd_ends_sync :
    ∀ (es : List Entry) (base acc : Nat),
      lastSyncEnd base acc (es ++ [Entry.sync])
        = base + (encodeLog (es ++ [Entry.sync])).length := by
  intro es
  induction es with
  | nil =>
    intro base acc
    rw [show lastSyncEnd base acc ([] ++ [Entry.sync])
        = lastSyncEnd (base + RecordHeaderSize) (base + RecordHeaderSize) [] from rfl]
    rw [show lastSyncEnd (base + RecordHeaderSize) (base + RecordHeaderSize) []
        = base + RecordHeaderSize from rfl]
    rw [show ([] : List Entry) ++ [Entry.sync] = [Entry.sync] from rfl]
    rfl
  | cons e es ih =>
    intro base acc
    cases e with
    | sync =>
      rw [show (Entry.sync :: es) ++ [Entry.sync]
          = Entry.sync :: (es ++ [Entry.sync]) from rfl]
      rw [show lastSyncEnd base acc (Entry.sync :: (es ++ [Entry.sync]))
          = lastSyncEnd (base + RecordHeaderSize) (base + RecordHeaderSize)
              (es ++ [Entry.sync]) from rfl]
      rw [ih]
      rw [encodeLog_cons, List.length_append, encodeEntry_sync_length]
      omega
    | data p =>
      rw [show (Entry.data p :: es) ++ [Entry.sync]
          = Entry.data p :: (es ++ [Entry.sync]) from rfl]
      rw [show lastSyncEnd base acc (Entry.data p :: (es ++ [Entry.sync]))
          = lastSyncEnd (base + RecordHeaderSize + p.length) acc
              (es ++ [Entry.sync]) from rfl]
      rw [ih]
      rw [encodeLog_cons, List.length_append, encodeEntry_data_length]
      omega

theorem lastSyncEnd_le :
    ∀ (es : List Entry) (base acc : Nat), acc ≤ base →
      lastSyncEnd base acc es ≤ base + (encodeLog es).length := by
  intro es
  induction es with
  | nil =>
    intro base acc h
    simpa [lastSyncEnd, encodeLog] using h
  | cons e es ih =>
    intro base acc h
    cases e with
    | sync =>
      rw [show lastSyncEnd base acc (Entry.sync :: es)
          = lastSyncEnd (base + RecordHeaderSize) (base + RecordHeaderSize) es from rfl]
      have := ih (base + RecordHeaderSize) (base + RecordHeaderSize) (le_refl _)
      rw [encodeLog_cons, List.length_append, encodeEntry_sync_length]
      omega
    | data p =>
      rw [show lastSyncEnd base acc (Entry.data p :: es)
          = lastSyncEnd (base + RecordHeaderSize + p.length) acc es from rfl]
      have := ih (base + RecordHeaderSize + p.length) acc (by omega)
      rw [encodeLog_cons, List.length_append, encodeEntry_data_length]
      omega

/-- Is an entry a data record? -/
def isDataEntry : Entry → Bool
  | .data _ => true
  | .sync => false

theorem logRecords_payload_pos :
    ∀ (es : List Entry) (base : Nat), logWF es = true →
      ∀ r ∈ logRecords base es, 0 < r.2.length := by
  intro es
  induction es with
  | nil => intro base _ r hr; simp [logRecords] at hr
  | cons e es ih =>
    intro base hWF r hr
    obtain ⟨hWFe, hWFes⟩ := logWF_cons hWF
    cases e with
    | sync => exact ih _ hWFes r hr
    | data p =>
      rcases List.mem_cons.mp hr with rfl | hr
      · simp only [entryWF, Bool.and_eq_true, decide_eq_true_eq] at hWFe
        exact hWFe.1
      · exact ih _ hWFes r hr

theorem logRecords_length_eq_count :
    ∀ (es : List Entry) (base : Nat),
      (logRecords base es).length = (es.filter isDataEntry).length := by
  intro es
  induction es with
  | nil => intro base; rfl
  | cons e es ih =>
    intro base
    cases e with
    | sync => simpa [isDataEntry, List.filter] using ih (base + RecordHeaderSize)
    | data p =>
      rw [show logRecords base (Entry.data p :: es)
          = (base, p) :: logRecords (base + RecordHeaderSize + p.length) es from rfl]
      rw [List.length_cons, ih]
      rw [show List.filter isDataEntry (Entry.data p :: es)
          = Entry.data p :: List.filter isDataEntry es from by
        simp [List.filter_cons, isDataEntry]]
      rw [List.length_cons]

theorem batchesEntries_WF (bs : List (List (List Nat)))
    (h : ∀ ps ∈ bs, ∀ p ∈ ps, 0 < p.length ∧ p.length < 2 ^ 32) :
    logWF (batchesEntries bs) = true := by
  simp only [batchesEntries, logWF, List.all_eq_true]
  intro e he
  rw [List.mem_flatten] at he
  obtain ⟨l, hl, hel⟩ := he
  rw [List.mem_map] at hl
  obtain ⟨ps, hps, rfl⟩ := hl
  rw [batchEntries, List.mem_append] at hel
  rcases hel with hel | hel
  · rw [List.mem_map] at hel
    obtain ⟨p, hp, rfl⟩ := hel
    have := h ps hps p hp
    simp only [entryWF, Bool.and_eq_true, decide_eq_true_eq]
    exact this
  · simp only [List.mem_singleton] at hel
    subst hel
    rfl

/-- Scanning a whole well-formed log from offset `0`. -/
theorem readAll_log (es : List Entry) (hWF : logWF es = true) :
    readAll (encodeLog es) (encodeLog es).length 0 = .ok (logRecords 0 es) := by
  have := readAll_at_log [] [] es hWF
  simpa using this

/-- Reading a record whose stored checksum was computed over `p` but whose
payload bytes are `p` with position `i` overwritten by a different byte
fails with the checksum error. -/
theorem readRecord_corrupt (A B p : List Nat) (i b : Nat)
    (hlt : p.length < 2 ^ 32) (hp : ∀ x ∈ p, x < 256) (hi : i < p.length)
    (hb : b < 256) (hne : b ≠ p[i]) :
    readRecord (A ++ (encodeHeader (crc32 p) p.length ++ p.set i b) ++ B) A.length
      = .error "Fail to read record: checksum is wrong, data is broken" := by
  have hHlen : (encodeHeader (crc32 p) p.length).length = RecordHeaderSize :=
    encodeHeader_length _ _
  have hslen : (p.set i b).length = p.length := List.length_set p i b
  have hF : A ++ (encodeHeader (crc32 p) p.length ++ p.set i b) ++ B
      = A ++ (encodeHeader (crc32 p) p.length ++ (p.set i b ++ B)) := by
    simp [List.append_assoc]
  have hFlen : (A ++ (encodeHeader (crc32 p) p.length ++ p.set i b) ++ B).length
      = A.length + (RecordHeaderSize + p.length) + B.length := by
    simp only [List.length_append, hHlen, hslen]
  have hdrop1 : (A ++ (encodeHeader (crc32 p) p.length ++ p.set i b) ++ B).drop A.length
      = encodeHeader (crc32 p) p.length ++ (p.set i b ++ B) := by
    rw [hF, List.drop_left]
  have hhb : readAtExact (A ++ (encodeHeader (crc32 p) p.length ++ p.set i b) ++ B)
      A.length RecordHeaderSize = some (encodeHeader (crc32 p) p.length) := by
    unfold readAtExact
    rw [if_pos (by omega), hdrop1, ← hHlen, List.take_left]
  have hF2 : A ++ (encodeHeader (crc32 p) p.length ++ p.set i b) ++ B
      = (A ++ encodeHeader (crc32 p) p.length) ++ (p.set i b ++ B) := by
    simp [List.append_assoc]
  have hdrop2 : (A ++ (encodeHeader (crc32 p) p.length ++ p.set i b) ++ B).drop
      (A.length + RecordHeaderSize) = p.set i b ++ B := by
    rw [hF2]
    have : A.length + RecordHeaderSize
        = (A ++ encodeHeader (crc32 p) p.length).length := by
      simp [hHlen]
    rw [this, List.drop_left]
  have hsize : readLe32 ((encodeHeader (crc32 p) p.length).drop 4) = p.length := by
    have : (encodeHeader (crc32 p) p.length).drop 4 = le32 p.length := by
      simp [encodeHeader, le32]
    rw [this, ← List.append_nil (le32 p.length), readLe32_le32 _ _ hlt]
  have hsum : readLe32 (encodeHeader (crc32 p) p.length) = crc32 p := by
    unfold encodeHeader
    exact readLe32_le32 _ _ (crc32_lt p)
  have hdata : readAtExact (A ++ (encodeHeader (crc32 p) p.length ++ p.set i b) ++ B)
      (A.length + RecordHeaderSize)
      (readLe32 ((encodeHeader (crc32 p) p.length).drop 4)) = some (p.set i b) := by
    unfold readAtExact
    rw [hsize, if_pos (by omega), hdrop2, ← hslen, List.take_left]
  unfold readRecord
  rw [hhb]
  dsimp only
  rw [hdata]
  dsimp only
  rw [hsum, if_neg (crc32_set_ne hp hi hb hne)]

instance {e a : Type} [DecidableEq e] [DecidableEq a] :
    DecidableEq (Except e a) := fun x y =>
  match x, y with
  | .ok v, .ok w =>
    if h : v = w then isTrue (by rw [h])
    else isFalse (by intro hc; cases hc; exact h rfl)
  | .error v, .error w =>
    if h : v = w then isTrue (by rw [h])
    else isFalse (by intro hc; cases hc; exact h rfl)
  | .ok _, .error _ => isFalse (by intro hc; cases hc)
  | .error _, .ok _ => isFalse (by intro hc; cases hc)

/-! ## The claims -/

/-- C1: the claim states that a failed sync-marker write or flush is
propagated to every request of the batch, including those whose record
write succeeded.  The code does the opposite: the completion loop is
`if req.err != nil { req.err = err }`, so a request whose record write
succeeded (err nil, position 0 here) keeps its nil error and its caller
observes success even though the batch's sync/flush failed.  This theorem
evaluates the loop at that failing input. -/
theorem claim_C1_sync_failure_not_propagated :
    finishBatch [((0 : Int), (none : Option String))] (some "sync failed")
        = [((0 : Int), (none : Option String))] ∧
    ((0 : Int), (none : Option String)) ≠ ((0 : Int), some "sync failed") := by
  constructor
  · rfl
  · intro h
    exact absurd (congrArg Prod.snd h) (by simp)

/-- C2: the claim states that an individual record-write failure is
recorded for that request and returned to its caller.  In the code the
completion loop `if req.err != nil { req.err = err }` overwrites the
recorded error with the sync result; when the sync record write succeeds
(`err = nil`) the failure is erased and the caller of `Write` observes
`(-1, nil)` — neither a valid position nor an error, a silently dropped
write.  This theorem evaluates the loop at that failing input. -/
theorem claim_C2_record_failure_masked :
    finishBatch [((-1 : Int), some "record write failed")] none
      = [((-1 : Int), (none : Option String))] := rfl

/-- C9: the claim states that `TruncateBefore`, `TruncateAfter`, `Backup`
and `RecoverFromBackup` all take the exclusive lock for their duration.
Three of them do, but `RecoverFromBackup` acquires no lock at all, despite
its own doc comment promising mutual exclusion with reads and writes. -/
theorem claim_C9_recoverFromBackup_unlocked :
    lockAcquired .truncateBefore = .exclusive ∧
    lockAcquired .truncateAfter = .exclusive ∧
    lockAcquired .backup = .exclusive ∧
    lockAcquired .recoverFromBackup = .noLock ∧
    LockMode.noLock ≠ LockMode.exclusive := by
  refine ⟨rfl, rfl, rfl, rfl, ?_⟩
  intro h
  cases h

set_option maxRecDepth 1000000 in
/-- C10: neither truncation validates its position.  Concretely: a log
holding one record with payload `[1,2,3,4]` (record bytes `[0,12)`, then a
sync marker, 20 bytes total), truncated after position `10` — strictly
inside the record's payload — leaves a log that `TruncateAfter` happily
finishes (writing its sync marker at 10, cursor 18), yet a reader opened
from 0 fails with the checksum corruption error instead of reaching
end-of-log. -/
theorem claim_C10_truncate_inside_record :
    ((State.mk [] 0).commitBatches [[[1, 2, 3, 4]]]).2 = [0] ∧
    (((State.mk [] 0).commitBatches [[[1, 2, 3, 4]]]).1.truncateAfter 10).pos = 18 ∧
    readAll (((State.mk [] 0).commitBatches [[[1, 2, 3, 4]]]).1.truncateAfter 10).file
        (((State.mk [] 0).commitBatches [[[1, 2, 3, 4]]]).1.truncateAfter 10).pos 0
      = .error "Fail to read record: checksum is wrong, data is broken" := by
  decide

set_option maxRecDepth 1000000 in
/-- C3, counterexample: the claim states positions are unchanged after
`TruncateBefore`.  Write `[10]` then `[20]` (assigned positions 0 and 17),
truncate before 17: the reader then yields the `[20]` record at position
`0`, not at its original position `17` — `TruncateBefore` copies the bytes
from 17 to a fresh file starting at offset 0, renumbering the survivors. -/
theorem claim_C3_positions_renumbered :
    ((State.mk [] 0).commitBatches [[[10]], [[20]]]).2 = [0, 17] ∧
    readAll (((State.mk [] 0).commitBatches [[[10]], [[20]]]).1.truncateBefore 17).file
        (((State.mk [] 0).commitBatches [[[10]], [[20]]]).1.truncateBefore 17).pos 0
      = .ok [(0, [20])] ∧
    (0 : Nat) ≠ 17 := by
  decide

/-- C7: sync markers are transparent.  A full scan of a well-formed log
region yields exactly its data records; every yielded payload is non-empty,
and the number of records equals the number of data entries (the non-empty
writes) inside the reader's snapshot. -/
theorem claim_C7_sync_transparency (es : List Entry) (A B : List Nat)
    (hWF : logWF es = true) :
    readAll (A ++ encodeLog es ++ B) (A.length + (encodeLog es).length) A.length
        = .ok (logRecords A.length es) ∧
    (∀ r ∈ logRecords A.length es, 0 < r.2.length) ∧
    (logRecords A.length es).length = (es.filter isDataEntry).length :=
  ⟨readAll_at_log A B es hWF, logRecords_payload_pos es A.length hWF,
    logRecords_length_eq_count es A.length⟩

theorem claim_C7_sync_transparency_witness :
    logWF [Entry.sync, Entry.data [5], Entry.sync] = true ∧
    (readAll (List.nil ++ encodeLog [Entry.sync, Entry.data [5], Entry.sync] ++ List.nil)
        (List.length (List.nil (α := Nat))
          + (encodeLog [Entry.sync, Entry.data [5], Entry.sync]).length)
        (List.length (List.nil (α := Nat)))
        = .ok (logRecords (List.length (List.nil (α := Nat)))
            [Entry.sync, Entry.data [5], Entry.sync]) ∧
      (∀ r ∈ logRecords (List.length (List.nil (α := Nat)))
          [Entry.sync, Entry.data [5], Entry.sync], 0 < r.2.length) ∧
      (logRecords (List.length (List.nil (α := Nat)))
          [Entry.sync, Entry.data [5], Entry.sync]).length
        = ([Entry.sync, Entry.data [5], Entry.sync].filter isDataEntry).length) :=
  ⟨by decide, claim_C7_sync_transparency [Entry.sync, Entry.data [5], Entry.sync]
    List.nil List.nil (by decide)⟩

/-- C4: after `Open`, the cursor equals the boundary just after the last
sync marker preceded only by valid records (`lastSyncEnd`, 0 when there is
none, in particular for an empty file), and the file is physically
truncated to that boundary.  The file is presented as a well-formed region
followed by a tail at which the scan stops: either fewer than a full
header's bytes remain, or the record parse there fails. -/
theorem claim_C4_recovery_boundary (es : List Entry) (junk : List Nat)
    (hWF : logWF es = true)
    (hstop : (encodeLog es ++ junk).length < (encodeLog es).length + RecordHeaderSize ∨
      ∃ e, readRecord (encodeLog es ++ junk) (encodeLog es).length = .error e) :
    State.recover (encodeLog es ++ junk)
        = { file := (encodeLog es ++ junk).take (lastSyncEnd 0 0 es),
            pos := lastSyncEnd 0 0 es } ∧
    ((encodeLog es ++ junk).take (lastSyncEnd 0 0 es)).length = lastSyncEnd 0 0 es := by
  have hle : lastSyncEnd 0 0 es ≤ (encodeLog es).length := by
    have := lastSyncEnd_le es 0 0 (le_refl 0)
    omega
  have hlen : (encodeLog es ++ junk).length
      = (encodeLog es).length + junk.length := by
    simp
  have hfuel : es.length < (encodeLog es ++ junk).length + 1 := by
    have := encodeLog_length_ge es
    omega
  have hb : recoveryBoundary (encodeLog es ++ junk) = lastSyncEnd 0 0 es := by
    unfold recoveryBoundary
    have h := recoveryScanAux_at_log ((encodeLog es ++ junk).length + 1) es [] junk 0
      hWF hfuel (by simpa using hstop)
    simpa using h
  constructor
  · unfold State.recover recovery
    rw [hb, truncateFile_le (by omega)]
  · rw [List.length_take]
    omega

theorem claim_C4_recovery_boundary_witness :
    logWF [Entry.data [7], Entry.sync] = true ∧
    ((encodeLog [Entry.data [7], Entry.sync] ++ [1, 2, 3]).length
        < (encodeLog [Entry.data [7], Entry.sync]).length + RecordHeaderSize ∨
      ∃ e, readRecord (encodeLog [Entry.data [7], Entry.sync] ++ [1, 2, 3])
        (encodeLog [Entry.data [7], Entry.sync]).length = .error e) ∧
    (State.recover (encodeLog [Entry.data [7], Entry.sync] ++ [1, 2, 3])
        = { file := (encodeLog [Entry.data [7], Entry.sync] ++ [1, 2, 3]).take
              (lastSyncEnd 0 0 [Entry.data [7], Entry.sync]),
            pos := lastSyncEnd 0 0 [Entry.data [7], Entry.sync] } ∧
      ((encodeLog [Entry.data [7], Entry.sync] ++ [1, 2, 3]).take
          (lastSyncEnd 0 0 [Entry.data [7], Entry.sync])).length
        = lastSyncEnd 0 0 [Entry.data [7], Entry.sync]) :=
  ⟨by decide, Or.inl (by decide),
    claim_C4_recovery_boundary [Entry.data [7], Entry.sync] [1, 2, 3]
      (by decide) (Or.inl (by decide))⟩

/-- C3, amended: after `TruncateBefore(p)` at a record boundary `p`, the
new file is exactly the old bytes from `p` on; the original reader showed
the records at positions `≥ p` to be `logRecords p es₂`, and a reader over
the truncated log yields exactly those records, in order, with each
position shifted down by `p`. -/
theorem claim_C3_amended (es₁ es₂ : List Entry)
    (hWF : logWF (es₁ ++ es₂) = true) :
    ((State.mk (encodeLog (es₁ ++ es₂)) (encodeLog (es₁ ++ es₂)).length).truncateBefore
        (encodeLog es₁).length).file = encodeLog es₂ ∧
    readAll (encodeLog (es₁ ++ es₂)) (encodeLog (es₁ ++ es₂)).length 0
        = .ok (logRecords 0 es₁ ++ logRecords (encodeLog es₁).length es₂) ∧
    readAll ((State.mk (encodeLog (es₁ ++ es₂))
          (encodeLog (es₁ ++ es₂)).length).truncateBefore (encodeLog es₁).length).file
        ((State.mk (encodeLog (es₁ ++ es₂))
          (encodeLog (es₁ ++ es₂)).length).truncateBefore (encodeLog es₁).length).pos 0
      = .ok ((logRecords (encodeLog es₁).length es₂).map
          fun r => (r.1 - (encodeLog es₁).length, r.2)) := by
  obtain ⟨hWF₁, hWF₂⟩ := logWF_append.mp hWF
  have hfile : ((State.mk (encodeLog (es₁ ++ es₂))
      (encodeLog (es₁ ++ es₂)).length).truncateBefore (encodeLog es₁).length).file
      = encodeLog es₂ := by
    unfold State.truncateBefore
    rw [encodeLog_append]
    exact List.drop_left _ _
  have hpos : ((State.mk (encodeLog (es₁ ++ es₂))
      (encodeLog (es₁ ++ es₂)).length).truncateBefore (encodeLog es₁).length).pos
      = (encodeLog es₂).length := by
    unfold State.truncateBefore
    rw [encodeLog_append]
    simp
  refine ⟨hfile, ?_, ?_⟩
  · rw [readAll_log (es₁ ++ es₂) hWF, logRecords_append]
    rw [show (0 : Nat) + (encodeLog es₁).length = (encodeLog es₁).length from by omega]
  · rw [hfile, hpos, readAll_log es₂ hWF₂]
    rw [show logRecords 0 es₂ = (logRecords (0 + (encodeLog es₁).length) es₂).map
        (fun r => (r.1 - (encodeLog es₁).length, r.2)) from
      logRecords_shift es₂ 0 (encodeLog es₁).length]
    rw [show (0 : Nat) + (encodeLog es₁).length = (encodeLog es₁).length from by omega]

theorem claim_C3_amended_witness :
    logWF ([Entry.data [10], Entry.sync] ++ [Entry.data [20], Entry.sync]) = true ∧
    (((State.mk (encodeLog ([Entry.data [10], Entry.sync] ++ [Entry.data [20], Entry.sync]))
          (encodeLog ([Entry.data [10], Entry.sync]
            ++ [Entry.data [20], Entry.sync])).length).truncateBefore
        (encodeLog [Entry.data [10], Entry.sync]).length).file
        = encodeLog [Entry.data [20], Entry.sync] ∧
      readAll (encodeLog ([Entry.data [10], Entry.sync] ++ [Entry.data [20], Entry.sync]))
          (encodeLog ([Entry.data [10], Entry.sync]
            ++ [Entry.data [20], Entry.sync])).length 0
        = .ok (logRecords 0 [Entry.data [10], Entry.sync]
            ++ logRecords (encodeLog [Entry.data [10], Entry.sync]).length
              [Entry.data [20], Entry.sync]) ∧
      readAll ((State.mk (encodeLog ([Entry.data [10], Entry.sync]
            ++ [Entry.data [20], Entry.sync]))
            (encodeLog ([Entry.data [10], Entry.sync]
              ++ [Entry.data [20], Entry.sync])).length).truncateBefore
          (encodeLog [Entry.data [10], Entry.sync]).length).file
          ((State.mk (encodeLog ([Entry.data [10], Entry.sync]
            ++ [Entry.data [20], Entry.sync]))
            (encodeLog ([Entry.data [10], Entry.sync]
              ++ [Entry.data [20], Entry.sync])).length).truncateBefore
          (encodeLog [Entry.data [10], Entry.sync]).length).pos 0
        = .ok ((logRecords (encodeLog [Entry.data [10], Entry.sync]).length
            [Entry.data [20], Entry.sync]).map
              fun r => (r.1 - (encodeLog [Entry.data [10], Entry.sync]).length, r.2))) :=
  ⟨by decide, claim_C3_amended [Entry.data [10], Entry.sync]
    [Entry.data [20], Entry.sync] (by decide)⟩

theorem encodeLog_singleton (e : Entry) : encodeLog [e] = encodeEntry e := by
  simp [encodeLog]

/-- C8: after `TruncateAfter(p)` at a record boundary `p`, the log is the
prefix `[0, p)` followed by a fresh sync marker (so it is well-formed
again, with the cursor at its end), a freshly opened reader from 0 yields
exactly the records whose full extent lies within `[0, p)`, and recovery
on the resulting file (a close/reopen cycle) changes nothing. -/
theorem claim_C8_truncate_after (es₁ es₂ : List Entry)
    (hWF₁ : logWF es₁ = true) (_hWF₂ : logWF es₂ = true) :
    ((State.mk (encodeLog (es₁ ++ es₂)) (encodeLog (es₁ ++ es₂)).length).truncateAfter
        (encodeLog es₁).length).file = encodeLog (es₁ ++ [Entry.sync]) ∧
    ((State.mk (encodeLog (es₁ ++ es₂)) (encodeLog (es₁ ++ es₂)).length).truncateAfter
        (encodeLog es₁).length).pos
      = (encodeLog (es₁ ++ [Entry.sync])).length ∧
    readAll (encodeLog (es₁ ++ [Entry.sync])) (encodeLog (es₁ ++ [Entry.sync])).length 0
      = .ok (logRecords 0 es₁) ∧
    State.recover (encodeLog (es₁ ++ [Entry.sync]))
      = State.mk (encodeLog (es₁ ++ [Entry.sync]))
          (encodeLog (es₁ ++ [Entry.sync])).length := by
  have hWFs : logWF (es₁ ++ [Entry.sync]) = true :=
    logWF_append.mpr ⟨hWF₁, rfl⟩
  have htr : truncateFile (encodeLog (es₁ ++ es₂)) (encodeLog es₁).length
      = encodeLog es₁ := by
    rw [truncateFile_le (by rw [encodeLog_append]; simp), encodeLog_append,
      List.take_left]
  have hta : ((State.mk (encodeLog (es₁ ++ es₂))
      (encodeLog (es₁ ++ es₂)).length).truncateAfter (encodeLog es₁).length)
      = State.mk (encodeLog (es₁ ++ [Entry.sync]))
          ((encodeLog es₁).length + RecordHeaderSize) := by
    unfold State.truncateAfter
    rw [htr, State.writeSyncRecord_spec _ rfl]
    rw [encodeLog_append, encodeLog_singleton]
  have hlens : (encodeLog (es₁ ++ [Entry.sync])).length
      = (encodeLog es₁).length + RecordHeaderSize := by
    rw [encodeLog_append, encodeLog_singleton, List.length_append,
      encodeEntry_sync_length]
  refine ⟨by rw [hta], by rw [hta, hlens], ?_, ?_⟩
  · rw [readAll_log _ hWFs, logRecords_append]
    rw [show ∀ b, logRecords b [Entry.sync] = [] from fun b => rfl]
    simp
  · have h := claim_C4_recovery_boundary (es₁ ++ [Entry.sync]) [] hWFs
      (Or.inl (by simp; norm_num [RecordHeaderSize]))
    rw [List.append_nil] at h
    obtain ⟨h1, _⟩ := h
    rw [h1]
    have hlse : lastSyncEnd 0 0 (es₁ ++ [Entry.sync])
        = (encodeLog (es₁ ++ [Entry.sync])).length := by
      have := lastSyncEnd_ends_sync es₁ 0 0
      simpa using this
    rw [hlse, List.take_length]

theorem claim_C8_truncate_after_witness :
    logWF [Entry.data [1], Entry.sync] = true ∧
    logWF [Entry.data [2], Entry.sync] = true ∧
    (((State.mk (encodeLog ([Entry.data [1], Entry.sync] ++ [Entry.data [2], Entry.sync]))
          (encodeLog ([Entry.data [1], Entry.sync]
            ++ [Entry.data [2], Entry.sync])).length).truncateAfter
        (encodeLog [Entry.data [1], Entry.sync]).length).file
        = encodeLog ([Entry.data [1], Entry.sync] ++ [Entry.sync]) ∧
      ((State.mk (encodeLog ([Entry.data [1], Entry.sync] ++ [Entry.data [2], Entry.sync]))
          (encodeLog ([Entry.data [1], Entry.sync]
            ++ [Entry.data [2], Entry.sync])).length).truncateAfter
          (encodeLog [Entry.data [1], Entry.sync]).length).pos
        = (encodeLog ([Entry.data [1], Entry.sync] ++ [Entry.sync])).length ∧
      readAll (encodeLog ([Entry.data [1], Entry.sync] ++ [Entry.sync]))
          (encodeLog ([Entry.data [1], Entry.sync] ++ [Entry.sync])).length 0
        = .ok (logRecords 0 [Entry.data [1], Entry.sync]) ∧
      State.recover (encodeLog ([Entry.data [1], Entry.sync] ++ [Entry.sync]))
        = State.mk (encodeLog ([Entry.data [1], Entry.sync] ++ [Entry.sync]))
            (encodeLog ([Entry.data [1], Entry.sync] ++ [Entry.sync])).length) :=
  ⟨by decide, by decide, claim_C8_truncate_after [Entry.data [1], Entry.sync]
    [Entry.data [2], Entry.sync] (by decide) (by decide)⟩

/-- C5: round trip plus corruption detection.  From a state whose cursor
sits at the end of the file, `writeRecord p` followed by the batch's sync
record produces a log where `Next` at the returned position yields exactly
the payload `p`; and if any single payload byte in the file is changed to
a different byte value, reading that record back fails with the checksum
corruption error instead of returning data. -/
theorem claim_C5_roundtrip_and_corruption (w : State) (p : List Nat)
    (hw : w.pos = w.file.length) (hp : 0 < p.length) (hlt : p.length < 2 ^ 32) :
    next ((w.writeRecord p).1.writeSyncRecord).file
        ((w.writeRecord p).1.writeSyncRecord).pos (w.writeRecord p).2
      = .ok (some ((w.writeRecord p).2, p,
          (w.writeRecord p).2 + RecordHeaderSize + p.length)) ∧
    ∀ (i b : Nat), (∀ x ∈ p, x < 256) → ∀ (hi : i < p.length), b < 256 → b ≠ p[i] →
      readRecord
        (((w.writeRecord p).1.writeSyncRecord).file.set
          ((w.writeRecord p).2 + RecordHeaderSize + i) b)
        (w.writeRecord p).2
      = .error "Fail to read record: checksum is wrong, data is broken" := by
  have hwr := State.writeRecord_spec w p hw
  have hws := State.writeSyncRecord_spec
    (State.mk (w.file ++ encodeEntry (.data p)) (w.pos + (p.length + RecordHeaderSize)))
    (by simp only [List.length_append, encodeEntry_data_length, hw]; omega)
  rw [hwr]
  dsimp only
  rw [hws]
  dsimp only
  rw [hw]
  constructor
  · have hWFes : logWF [Entry.data p, Entry.sync] = true := by
      simp only [logWF, List.all_cons, List.all_nil, entryWF, Bool.and_eq_true,
        decide_eq_true_eq, Bool.and_true]
      exact ⟨hp, hlt⟩
    have hlog : encodeLog [Entry.data p, Entry.sync]
        = encodeEntry (Entry.data p) ++ encodeEntry Entry.sync := by
      simp [encodeLog]
    have h := next_at_log w.file [] [Entry.data p, Entry.sync] hWFes
    rw [List.append_nil, hlog] at h
    have hsz : w.file.length + (p.length + RecordHeaderSize) + RecordHeaderSize
        = w.file.length + (encodeEntry (Entry.data p) ++ encodeEntry Entry.sync).length := by
      simp only [List.length_append, encodeEntry_data_length, encodeEntry_sync_length]
      omega
    rw [List.append_assoc, hsz, h]
    rw [show firstRec w.file.length [Entry.data p, Entry.sync]
        = some (w.file.length, p, w.file.length + RecordHeaderSize + p.length) from rfl]
  · intro i b hbytes hi hb256 hne
    have hidx1 : w.file.length + RecordHeaderSize + i
        < (w.file ++ encodeEntry (Entry.data p)).length := by
      simp only [List.length_append, encodeEntry_data_length]
      omega
    rw [List.set_append_left _ _ hidx1]
    rw [show encodeEntry (Entry.data p)
        = encodeHeader (crc32 p) p.length ++ p from rfl]
    rw [List.set_append_right _ _
      (show w.file.length ≤ w.file.length + RecordHeaderSize + i from by omega)]
    rw [show w.file.length + RecordHeaderSize + i - w.file.length
        = RecordHeaderSize + i from by omega]
    rw [List.set_append_right _ _
      (show (encodeHeader (crc32 p) p.length).length ≤ RecordHeaderSize + i from by
        rw [encodeHeader_length]; omega)]
    rw [show RecordHeaderSize + i - (encodeHeader (crc32 p) p.length).length = i from by
      rw [encodeHeader_length]; omega]
    exact readRecord_corrupt w.file (encodeEntry Entry.sync) p i b hlt hbytes hi hb256 hne

theorem claim_C5_roundtrip_and_corruption_witness :
    (State.mk ([] : List Nat) 0).pos = (State.mk ([] : List Nat) 0).file.length ∧
    0 < [1, 2].length ∧ [1, 2].length < 2 ^ 32 ∧
    (next (((State.mk ([] : List Nat) 0).writeRecord [1, 2]).1.writeSyncRecord).file
        (((State.mk ([] : List Nat) 0).writeRecord [1, 2]).1.writeSyncRecord).pos
        ((State.mk ([] : List Nat) 0).writeRecord [1, 2]).2
      = .ok (some (((State.mk ([] : List Nat) 0).writeRecord [1, 2]).2, [1, 2],
          ((State.mk ([] : List Nat) 0).writeRecord [1, 2]).2
            + RecordHeaderSize + [1, 2].length)) ∧
    ∀ (i b : Nat), (∀ x ∈ [1, 2], x < 256) → ∀ (hi : i < [1, 2].length),
      b < 256 → b ≠ [1, 2][i] →
      readRecord
        ((((State.mk ([] : List Nat) 0).writeRecord [1, 2]).1.writeSyncRecord).file.set
          (((State.mk ([] : List Nat) 0).writeRecord [1, 2]).2 + RecordHeaderSize + i) b)
        ((State.mk ([] : List Nat) 0).writeRecord [1, 2]).2
      = .error "Fail to read record: checksum is wrong, data is broken") :=
  ⟨rfl, by decide, by decide,
    claim_C5_roundtrip_and_corruption (State.mk ([] : List Nat) 0) [1, 2]
      rfl (by decide) (by decide)⟩

/-- C6: positions assigned across any sequence of committer batches are
strictly increasing in completion order, and a reader opened from 0 after
they all completed yields the pre-existing records followed by exactly the
written payloads, in order, each at its returned position. -/
theorem claim_C6_append_monotonic (es₀ : List Entry) (bs : List (List (List Nat)))
    (hWF : logWF es₀ = true)
    (hbs : ∀ ps ∈ bs, ∀ p ∈ ps, 0 < p.length ∧ p.length < 2 ^ 32) :
    ((State.mk (encodeLog es₀) (encodeLog es₀).length).commitBatches bs).2.Pairwise
        (· < ·) ∧
    readAll ((State.mk (encodeLog es₀) (encodeLog es₀).length).commitBatches bs).1.file
        ((State.mk (encodeLog es₀) (encodeLog es₀).length).commitBatches bs).1.pos 0
      = .ok (logRecords 0 es₀
          ++ ((State.mk (encodeLog es₀) (encodeLog es₀).length).commitBatches
              bs).2.zip bs.flatten) := by
  have hcb := State.commitBatches_spec bs
    (State.mk (encodeLog es₀) (encodeLog es₀).length) rfl
  rw [hcb]
  dsimp only
  constructor
  · exact allRecPositions_pairwise bs _
  · have hWFb := batchesEntries_WF bs hbs
    have hWFall : logWF (es₀ ++ batchesEntries bs) = true :=
      logWF_append.mpr ⟨hWF, hWFb⟩
    rw [show encodeLog es₀ ++ encodeLog (batchesEntries bs)
        = encodeLog (es₀ ++ batchesEntries bs) from (encodeLog_append _ _).symm]
    rw [show (encodeLog es₀).length + (encodeLog (batchesEntries bs)).length
        = (encodeLog (es₀ ++ batchesEntries bs)).length from by
      rw [encodeLog_append, List.length_append]]
    rw [readAll_log _ hWFall, logRecords_append]
    rw [show (0 : Nat) + (encodeLog es₀).length = (encodeLog es₀).length from by omega]
    rw [logRecords_batchesEntries]

theorem claim_C6_append_monotonic_witness :
    logWF [] = true ∧
    (∀ ps ∈ [[[1], [2]], [[3]]], ∀ p ∈ ps, 0 < p.length ∧ p.length < 2 ^ 32) ∧
    (((State.mk (encodeLog []) (encodeLog []).length).commitBatches
        [[[1], [2]], [[3]]]).2.Pairwise (· < ·) ∧
    readAll ((State.mk (encodeLog []) (encodeLog []).length).commitBatches
          [[[1], [2]], [[3]]]).1.file
        ((State.mk (encodeLog []) (encodeLog []).length).commitBatches
          [[[1], [2]], [[3]]]).1.pos 0
      = .ok (logRecords 0 []
          ++ ((State.mk (encodeLog []) (encodeLog []).length).commitBatches
              [[[1], [2]], [[3]]]).2.zip [[[1], [2]], [[3]]].flatten)) :=
  ⟨rfl, by decide,
    claim_C6_append_monotonic [] [[[1], [2]], [[3]]] rfl (by decide)⟩

end Wal
